import Mathlib

/-!
# Skip list (`skip_list/skip_list.go`)

A shallow embedding of the Go skip list.  Go nodes live on the heap and are
shared through pointers, and `Put` and `Del` mutate them in place, so the
state of an index is an explicit store of nodes addressed by position plus the
head pointer.  A pointer is `none` (Go `nil`) or `some a` with `a` an address
in the store.  Keys and values are Go `int`; the code only compares and copies
them, so they are unbounded integers here.

Every operation returns `Except Fault _`: a Go run-time panic (nil
dereference, index out of range) is an error result.  The inner `for` loops
that walk to the right have no syntactic bound; they are given a budget of
`mem.length + 1` steps, which a walk over distinct nodes never exhausts, and
report `Fault.diverges` when the budget is used up.
-/

namespace skip_list

/-- The ways an operation can fail to return. -/
inductive Fault where
  /-- Dereference of a nil pointer. -/
  | nilDeref
  /-- Index out of range on a link sequence. -/
  | indexOutOfRange
  /-- An address outside the store (Go cannot produce one). -/
  | dangling
  /-- A walk to the right that does not end (a cycle of links). -/
  | diverges
deriving DecidableEq, Repr

/-- A Go `*Node`: `none` is `nil`, `some a` the node stored at address `a`. -/
abbrev Ptr := Option Nat

/-- The Go struct `Node`: forward links, one per level, a key and a value. -/
structure Node where
  nexts : List Ptr
  key : Int
  val : Int
deriving DecidableEq, Repr

/-- The Go struct `SkipList` together with the heap its nodes live in. -/
structure SkipList where
  mem : List Node
  head : Ptr
deriving DecidableEq, Repr

/-- Following a pointer: `nil` faults. -/
def deref : Ptr → Except Fault Nat
  | none => .error .nilDeref
  | some a => .ok a

/-- Reading the node at an address. -/
def load (mem : List Node) (a : Nat) : Except Fault Node :=
  match mem[a]? with
  | some n => .ok n
  | none => .error .dangling

/-- The Go expression `nexts[i]`, which panics when `i` is out of range. -/
def index (nexts : List Ptr) (i : Nat) : Except Fault Ptr :=
  match nexts[i]? with
  | some p => .ok p
  | none => .error .indexOutOfRange

/-- The Go assignment `a.nexts[level] = p`. -/
def setLink (mem : List Node) (a level : Nat) (p : Ptr) : Except Fault (List Node) := do
  let n ← load mem a
  if level < n.nexts.length then
    pure (mem.set a { n with nexts := n.nexts.set level p })
  else
    .error .indexOutOfRange

/-- The inner loop shared by every operation:
`for move.nexts[level] != nil && move.nexts[level].key < key { move = move.nexts[level] }`.
Returns the final `move`. -/
def advance (mem : List Node) (level : Nat) (key : Int) : Nat → Nat → Except Fault Nat
  | 0, _ => .error .diverges
  | fuel + 1, move => do
    let m ← load mem move
    let next ← index m.nexts level
    match next with
    | none => pure move
    | some a => do
      let n ← load mem a
      if n.key < key then advance mem level key fuel a else pure move

/-- How the descent from the top level ends: with an early return of the node
whose key equals the target, or by falling out of the loop with `move`. -/
inductive Stop where
  | found (node : Nat)
  | bottom (move : Nat)
deriving DecidableEq, Repr

/-- The outer loop of `Search`, `ceiling` and `floor` (lines 28-40, 148-157
and 177-185, the same text three times): `for level := n - 1; level >= 0; level--`
with the walk to the right and the test for an exact match.  The first
argument is the number of levels still to visit, so `level + 1` visits
`level`. -/
def descend (mem : List Node) (key : Int) : Nat → Nat → Except Fault Stop
  | 0, move => pure (.bottom move)
  | level + 1, move => do
    let move ← advance mem level key (mem.length + 1) move
    let m ← load mem move
    let next ← index m.nexts level
    match next with
    | none => descend mem key level move
    | some a => do
      let n ← load mem a
      if n.key = key then pure (.found a) else descend mem key level move

/-- Go `func (s *SkipList) Search(key int) *Node`. -/
def SkipList.Search (s : SkipList) (key : Int) : Except Fault Ptr := do
  let hd ← deref s.head
  let h ← load s.mem hd
  match ← descend s.mem key h.nexts.length hd with
  | .found a => pure (some a)
  | .bottom _ => pure none

/-- Go `func (s *SkipList) Get(key int) (int, bool)`. -/
def SkipList.Get (s : SkipList) (key : Int) : Except Fault (Int × Bool) := do
  match ← s.Search key with
  | some a => do
    let n ← load s.mem a
    pure (n.val, true)
  | none => pure (-1, false)

/-- The loop of `randomLevel` (lines 49-51), `for rand.Intn(2) == 1 { level++ }`,
over an explicit random source: `flips` lists the values that the successive
calls `rand.Intn(2)` return.  The result is the final `level` and the flips
left unread; it is `none` when the source is used up before a flip differs
from 1.  (`level` is a Go `int`; it would take `2^63` flips to wrap.) -/
def randomLevelLoop : Nat → List Nat → Option (Nat × List Nat)
  | _, [] => none
  | level, flip :: rest =>
    if flip = 1 then randomLevelLoop (level + 1) rest else some (level, rest)

/-- Go `func (s *SkipList) randomLevel() int`: `var level int` and the loop. -/
def SkipList.randomLevel (_s : SkipList) (flips : List Nat) : Option (Nat × List Nat) :=
  randomLevelLoop 0 flips

/-- The Go allocation `&Node{nexts: make([]*Node, level), key: key, val: val}`
of `Put` (lines 69-73): a node with `level` nil links. -/
def Node.make (key val : Int) (level : Nat) : Node :=
  { nexts := List.replicate level none, key := key, val := val }

/-- The loop `for len(s.head.nexts)-1 < level { s.head.nexts = append(s.head.nexts, nil) }`;
the first argument bounds the number of iterations (`level + 1` is enough). -/
def growHead (level : Nat) : Nat → List Ptr → List Ptr
  | 0, nexts => nexts
  | fuel + 1, nexts =>
    if (nexts.length : Int) - 1 < (level : Int) then growHead level fuel (nexts ++ [none])
    else nexts

/-- The splice loop of `Put` (lines 76-85): at every level from the top down,
walk right, then `newNode.nexts[level] = move.nexts[level]` and
`move.nexts[level] = newNode`. -/
def putLoop (key : Int) (newNode : Nat) : Nat → List Node → Nat → Except Fault (List Node)
  | 0, mem, _ => pure mem
  | level + 1, mem, move => do
    let move ← advance mem level key (mem.length + 1) move
    let m ← load mem move
    let next ← index m.nexts level
    let mem ← setLink mem newNode level next
    let mem ← setLink mem move level (some newNode)
    putLoop key newNode level mem move

/-- Go `func (s *SkipList) Put(key, val int)`.  The extra argument `level` is the
value that the call `s.randomLevel()` returns; it is only used when the key is
new. -/
def SkipList.Put (s : SkipList) (key val : Int) (level : Nat) : Except Fault SkipList := do
  match ← s.Search key with
  | some a => do
    let n ← load s.mem a
    pure { s with mem := s.mem.set a { n with val := val } }
  | none => do
    let hd ← deref s.head
    let h ← load s.mem hd
    let mem := s.mem.set hd { h with nexts := growHead level (level + 1) h.nexts }
    let newNode := mem.length
    let mem := mem ++ [Node.make key val level]
    let h ← load mem hd
    let mem ← putLoop key newNode h.nexts.length mem hd
    pure { s with mem := mem }

/-- The unlink loop of `Del` (lines 96-107). -/
def delLoop (key : Int) : Nat → List Node → Nat → Except Fault (List Node)
  | 0, mem, _ => pure mem
  | level + 1, mem, move => do
    let move ← advance mem level key (mem.length + 1) move
    let m ← load mem move
    let next ← index m.nexts level
    match next with
    | none => delLoop key level mem move
    | some a => do
      let n ← load mem a
      if n.key = key then do
        let after ← index n.nexts level
        let mem ← setLink mem move level after
        delLoop key level mem move
      else delLoop key level mem move

/-- The counting loop of `Del` (lines 110-113): the number of `nil` links at
the top of the head's link sequence.  The first argument is the number of
levels still to look at. -/
def trailingNil : Nat → List Ptr → Nat
  | 0, _ => 0
  | level + 1, nexts =>
    match nexts[level]? with
    | some none => trailingNil level nexts + 1
    | _ => 0

/-- Go `func (s *SkipList) Del(key int)`. -/
def SkipList.Del (s : SkipList) (key : Int) : Except Fault SkipList := do
  match ← s.Search key with
  | none => pure s
  | some _ => do
    let hd ← deref s.head
    let h ← load s.mem hd
    let mem ← delLoop key h.nexts.length s.mem hd
    let h ← load mem hd
    let diff := trailingNil h.nexts.length h.nexts
    pure { s with mem := mem.set hd { h with nexts := h.nexts.take (h.nexts.length - diff) } }

/-- Go `func (s *SkipList) ceiling(target int) *Node`. -/
def SkipList.ceiling (s : SkipList) (target : Int) : Except Fault Ptr := do
  let hd ← deref s.head
  let h ← load s.mem hd
  match ← descend s.mem target h.nexts.length hd with
  | .found a => pure (some a)
  | .bottom move => do
    let m ← load s.mem move
    index m.nexts 0

/-- Go `func (s *SkipList) Ceiling(target int) ([2]int, bool)`. -/
def SkipList.Ceiling (s : SkipList) (target : Int) : Except Fault ((Int × Int) × Bool) := do
  match ← s.ceiling target with
  | none => pure ((0, 0), false)
  | some a => do
    let n ← load s.mem a
    pure ((n.key, n.val), true)

/-- Go `func (s *SkipList) floor(target int) *Node`. -/
def SkipList.floor (s : SkipList) (target : Int) : Except Fault Ptr := do
  let hd ← deref s.head
  let h ← load s.mem hd
  match ← descend s.mem target h.nexts.length hd with
  | .found a => pure (some a)
  | .bottom move => pure (some move)

/-- Go `func (s *SkipList) Floor(target int) ([2]int, bool)`. -/
def SkipList.Floor (s : SkipList) (target : Int) : Except Fault ((Int × Int) × Bool) := do
  match ← s.floor target with
  | none => pure ((0, 0), false)
  | some a => do
    let n ← load s.mem a
    pure ((n.key, n.val), true)

/-- The collecting loop of `Range` (lines 127-130):
`for move != nil && move.key <= end { result = append(result, ...); move = move.nexts[0] }`. -/
def collect (mem : List Node) (stop : Int) : Nat → Ptr → Except Fault (List (Int × Int))
  | _, none => pure []
  | 0, some _ => .error .diverges
  | fuel + 1, some a => do
    let n ← load mem a
    if n.key ≤ stop then do
      let next ← index n.nexts 0
      let rest ← collect mem stop fuel next
      pure ((n.key, n.val) :: rest)
    else pure []

/-- Go `func (s *SkipList) Range(start, end int) [][2]int`. -/
def SkipList.Range (s : SkipList) (start stop : Int) : Except Fault (List (Int × Int)) := do
  match ← s.ceiling start with
  | none => pure []
  | some a => collect s.mem stop (s.mem.length + 1) (some a)

/-- The empty index: a head node with no links. -/
def emptyIndex : SkipList :=
  { mem := [{ nexts := [], key := 0, val := 0 }], head := some 0 }

/-- An index holding keys 1, 2, 3 with values 10, 20, 30; key 2 has two levels. -/
def sample123 : SkipList :=
  { mem := [ { nexts := [some 1, some 2], key := 0, val := 0 },
             { nexts := [some 2], key := 1, val := 10 },
             { nexts := [some 3, none], key := 2, val := 20 },
             { nexts := [none], key := 3, val := 30 } ],
    head := some 0 }


/-! ## Well-formed indexes -/

/-- The level-`level` link of the node at address `a`, when both exist. -/
def link (mem : List Node) (level a : Nat) : Option Ptr :=
  match mem[a]? with
  | some n => n.nexts[level]?
  | none => none

/-- The key of the node at address `a`. -/
def keyAt (mem : List Node) (a : Nat) : Int :=
  match mem[a]? with
  | some n => n.key
  | none => 0

/-- The value of the node at address `a`. -/
def valAt (mem : List Node) (a : Nat) : Int :=
  match mem[a]? with
  | some n => n.val
  | none => 0

/-- Successors: `Succs mem level a l` says that following the level-`level`
links from the node at `a` visits exactly the addresses `l`, in this order,
and then reaches `nil`.
Every visited node therefore has more than `level` links. -/
def Succs (mem : List Node) (level : Nat) : Nat → List Nat → Prop
  | a, [] => link mem level a = some none
  | a, b :: rest => link mem level a = some (some b) ∧ Succs mem level b rest

/-- The chain of level `L`, the empty list above the top level. -/
def chainAt (chains : List (List Nat)) (L : Nat) : List Nat := chains.getD L []

/-- The level-0 chain: the addresses of all stored nodes in link order. -/
def base (chains : List (List Nat)) : List Nat := chainAt chains 0

/-- The (key, val) pairs of the nodes at the addresses `l`. -/
def entries (mem : List Node) (l : List Nat) : List (Int × Int) :=
  l.map (fun a => (keyAt mem a, valAt mem a))

/-- A well-formed index whose level-`L` chain is `chains[L]`: the head exists
and has one link per chain; the chain of each level is what the links of that
level visit from the head (so every node reachable at level `L` has more than
`L` links); keys strictly increase along every chain; and the chain of each
level above 0 is a subsequence of the chain below (`chainAt` is empty above
the top level, so the last condition says nothing there). -/
def WF (s : SkipList) (chains : List (List Nat)) : Prop :=
  ∃ hd h, s.head = some hd ∧ s.mem[hd]? = some h ∧ chains.length = h.nexts.length ∧
    (∀ L, L < chains.length → Succs s.mem L hd (chainAt chains L)) ∧
    (∀ L, L < chains.length →
      (chainAt chains L).Pairwise (fun a b => keyAt s.mem a < keyAt s.mem b)) ∧
    (∀ L, L < chains.length → (chainAt chains (L + 1)).Sublist (chainAt chains L))

/-- Where the walk to the right stops when it starts at `a` and the nodes
ahead are `l`. -/
def stopAt (mem : List Node) (t : Int) : Nat → List Nat → Nat
  | a, [] => a
  | a, b :: rest => if keyAt mem b < t then stopAt mem t b rest else a

/-- What `WF` says about the store, with the chains as a function of the level. -/
structure Chains (mem : List Node) (hd n : Nat) (ch : Nat → List Nat) : Prop where
  succs : ∀ L, L < n → Succs mem L hd (ch L)
  sorted : ∀ L, (ch L).Pairwise (fun a b => keyAt mem a < keyAt mem b)
  sub : ∀ L, (ch (L + 1)).Sublist (ch L)
  beyond : ∀ L, n ≤ L → ch L = []

/-- What the descent guarantees about its result (`n` levels, target `t`):
an early return gives the stored node with key `t`; falling out of the loop
gives the head or the stored node whose successors at level 0 are exactly the
nodes of key `> t`, and then no stored node has key `t`. -/
def Descended (mem : List Node) (hd n : Nat) (ch : Nat → List Nat) (t : Int) : Stop → Prop
  | .found a => a ∈ ch 0 ∧ keyAt mem a = t
  | .bottom m => (m = hd ∨ (m ∈ ch 0 ∧ keyAt mem m < t)) ∧ (n = 0 → m = hd) ∧
      (0 < n → Succs mem 0 m ((ch 0).dropWhile (fun b => decide (keyAt mem b < t)))) ∧
      ∀ b ∈ ch 0, keyAt mem b ≠ t

instance Succs.decidable (mem : List Node) (L : Nat) :
    ∀ (l : List Nat) (a : Nat), Decidable (Succs mem L a l)
  | [], a => inferInstanceAs (Decidable (link mem L a = some none))
  | b :: rest, a =>
    @instDecidableAnd _ _ (inferInstanceAs (Decidable (link mem L a = some (some b))))
      (Succs.decidable mem L rest b)

/-- An index holding keys 1, 2, 3, 5, 8 (values ten times the key); keys 2
and 5 have two levels. -/
def sample12358 : SkipList :=
  { mem := [ { nexts := [some 1, some 2], key := 0, val := 0 },
             { nexts := [some 2], key := 1, val := 10 },
             { nexts := [some 3, some 4], key := 2, val := 20 },
             { nexts := [some 4], key := 3, val := 30 },
             { nexts := [some 5, none], key := 5, val := 50 },
             { nexts := [none], key := 8, val := 80 } ],
    head := some 0 }

/-- The chains while the unlink loop of `Del` is at work: the node `x` is gone
from the levels already visited (`lvl` and above) and still present below. -/
def partlyUnlinked (ch : Nat → List Nat) (x lvl : Nat) (L : Nat) : List Nat :=
  if L < lvl then ch L else (ch L).filter (fun b => decide (b ≠ x))

/-- The chains of the index after `Del` has unlinked the node `x` and kept
`n'` levels. -/
def chainsWithout (chains : List (List Nat)) (x n' : Nat) : List (List Nat) :=
  (List.range n').map (fun L => (chainAt chains L).filter (fun b => decide (b ≠ x)))

/-- One call of a client program: `Put(key, val)` together with the level
that `randomLevel` draws for it, or `Del(key)`. -/
inductive Op where
  | put (key val : Int) (level : Nat)
  | del (key : Int)
deriving DecidableEq, Repr

/-- The call `op` on the index `s`. -/
def SkipList.apply (s : SkipList) : Op → Except Fault SkipList
  | .put key val level => s.Put key val level
  | .del key => s.Del key

/-- A sequence of calls, one after the other; a panic ends the program. -/
def run : SkipList → List Op → Except Fault SkipList
  | s, [] => .ok s
  | s, op :: ops => do
    let s' ← s.apply op
    run s' ops

/-! ## Basic facts about the store -/

theorem load_eq_ok {mem : List Node} {a : Nat} {n : Node} (h : mem[a]? = some n) :
    load mem a = .ok n := by
  simp [load, h]

theorem link_eq_some {mem : List Node} {L a : Nat} {p : Ptr} (h : link mem L a = some p) :
    ∃ n, mem[a]? = some n ∧ n.nexts[L]? = some p := by
  unfold link at h
  cases hm : mem[a]? with
  | none => simp [hm] at h
  | some n => exact ⟨n, rfl, by simpa [hm] using h⟩

theorem keyAt_eq {mem : List Node} {a : Nat} {n : Node} (h : mem[a]? = some n) :
    keyAt mem a = n.key := by
  simp [keyAt, h]

theorem valAt_eq {mem : List Node} {a : Nat} {n : Node} (h : mem[a]? = some n) :
    valAt mem a = n.val := by
  simp [valAt, h]

theorem Succs.link_isSome {mem : List Node} {L a : Nat} {l : List Nat} (h : Succs mem L a l) :
    ∃ p, link mem L a = some p := by
  cases l with
  | nil => exact ⟨none, h⟩
  | cons b rest => exact ⟨some b, h.1⟩

theorem Succs.head? {mem : List Node} {L a : Nat} {l : List Nat} (h : Succs mem L a l) :
    link mem L a = some l.head? := by
  cases l with
  | nil => exact h
  | cons b rest => exact h.1

/-- The successors of a node are determined by the store. -/
theorem Succs.unique {mem : List Node} {L : Nat} :
    ∀ {l₁ l₂ : List Nat} {a : Nat}, Succs mem L a l₁ → Succs mem L a l₂ → l₁ = l₂
  | [], [], _, _, _ => rfl
  | [], _ :: _, _, h₁, h₂ => by
    have := h₁.symm.trans h₂.1
    simp at this
  | _ :: _, [], _, h₁, h₂ => by
    have := h₁.1.symm.trans h₂
    simp at this
  | b :: r₁, c :: r₂, _, h₁, h₂ => by
    have hbc : b = c := by
      have := h₁.1.symm.trans h₂.1
      simpa using this
    subst hbc
    rw [Succs.unique h₁.2 h₂.2]

/-- Splitting a chain at one of its nodes. -/
theorem Succs.split {mem : List Node} {L : Nat} :
    ∀ {l₁ : List Nat} {a b : Nat} {l₂ : List Nat},
      Succs mem L a (l₁ ++ b :: l₂) → Succs mem L b l₂
  | [], _, _, _, h => h.2
  | _ :: _, _, _, _, h => Succs.split h.2

theorem Succs.mem_valid {mem : List Node} {L : Nat} {a : Nat} {l : List Nat}
    (h : Succs mem L a l) {b : Nat} (hb : b ∈ l) : ∃ p, link mem L b = some p := by
  obtain ⟨l₁, l₂, rfl⟩ := List.append_of_mem hb
  exact (Succs.split h).link_isSome

theorem Succs.load_ok {mem : List Node} {L a : Nat} {l : List Nat} (h : Succs mem L a l) :
    ∃ n, mem[a]? = some n ∧ load mem a = .ok n ∧ index n.nexts L = .ok l.head? := by
  obtain ⟨n, hn, hl⟩ := link_eq_some h.head?
  exact ⟨n, hn, load_eq_ok hn, by simp [index, hl]⟩

/-- The walk to the right returns, and stops where `stopAt` says. -/
theorem advance_eq {mem : List Node} {L : Nat} {t : Int} :
    ∀ (l : List Nat) (a fuel : Nat), Succs mem L a l → l.length < fuel →
      advance mem L t fuel a = .ok (stopAt mem t a l)
  | [], a, fuel + 1, h, _ => by
    obtain ⟨n, _, hld, hix⟩ := h.load_ok
    simp [advance, hld, hix, stopAt, bind, Except.bind, pure, Except.pure]
  | b :: rest, a, fuel + 1, h, hf => by
    obtain ⟨n, _, hld, hix⟩ := h.load_ok
    obtain ⟨nb, hnb, hldb, _⟩ := h.2.load_ok
    have ih := advance_eq (t := t) rest b fuel h.2 (by simpa using hf)
    simp only [advance, hld, hix, stopAt, bind, Except.bind, pure, Except.pure, List.head?_cons,
      hldb, keyAt_eq hnb]
    split <;> simp_all

theorem Succs_stopAt {mem : List Node} {L : Nat} {t : Int} :
    ∀ (l : List Nat) (a : Nat), Succs mem L a l →
      Succs mem L (stopAt mem t a l) (l.dropWhile (fun b => decide (keyAt mem b < t)))
  | [], _, h => by simpa [stopAt] using h
  | b :: rest, a, h => by
    by_cases hb : keyAt mem b < t
    · simpa [stopAt, hb, List.dropWhile] using Succs_stopAt rest b h.2
    · simpa [stopAt, hb, List.dropWhile] using h

theorem stopAt_mem (mem : List Node) (t : Int) :
    ∀ (l : List Nat) (a : Nat),
      stopAt mem t a l = a ∨ (stopAt mem t a l ∈ l ∧ keyAt mem (stopAt mem t a l) < t)
  | [], _ => by simp [stopAt]
  | b :: rest, a => by
    by_cases hb : keyAt mem b < t
    · rcases stopAt_mem mem t rest b with h | h
      · right; simp [stopAt, hb, h]
      · right; simp [stopAt, hb, h]
    · simp [stopAt, hb]

/-! ## Lists with strictly increasing keys -/

theorem increasing_inj {f : Nat → Int} :
    ∀ {l : List Nat}, l.Pairwise (fun a b => f a < f b) →
      ∀ {a b : Nat}, a ∈ l → b ∈ l → f a = f b → a = b
  | [], _, _, _, ha, _, _ => by simp at ha
  | x :: xs, hp, a, b, ha, hb, h => by
    rw [List.pairwise_cons] at hp
    rcases List.mem_cons.mp ha with rfl | ha' <;> rcases List.mem_cons.mp hb with rfl | hb'
    · rfl
    · have := hp.1 b hb'; omega
    · have := hp.1 a ha'; omega
    · exact increasing_inj hp.2 ha' hb' h

theorem increasing_nodup {f : Nat → Int} {l : List Nat}
    (hp : l.Pairwise (fun a b => f a < f b)) : l.Nodup :=
  hp.imp (fun {a b} hab heq => by subst heq; omega)

theorem dropWhile_append_of_all {p : Nat → Bool} :
    ∀ {l₁ l₂ : List Nat}, (∀ x ∈ l₁, p x = true) → (l₁ ++ l₂).dropWhile p = l₂.dropWhile p
  | [], _, _ => rfl
  | x :: xs, l₂, h => by
    have hx : p x = true := h x (List.mem_cons_self _ _)
    simp only [List.cons_append, List.dropWhile_cons, hx, if_true]
    exact dropWhile_append_of_all (fun y hy => h y (List.mem_cons_of_mem _ hy))

theorem mem_dropWhile_of_not {p : Nat → Bool} {l : List Nat} {b : Nat} (hb : b ∈ l)
    (hp : p b = false) : b ∈ l.dropWhile p := by
  have hsplit := List.takeWhile_append_dropWhile p l
  rw [← hsplit] at hb
  rcases List.mem_append.mp hb with h | h
  · have := List.mem_takeWhile_imp h
    simp [hp] at this
  · exact h

theorem dropWhile_sublist_self (p : Nat → Bool) (l : List Nat) : (l.dropWhile p).Sublist l :=
  (List.dropWhile_suffix p).sublist

/-- In a list with increasing keys, everything from the first key `≥ t` on has key `≥ t`. -/
theorem le_of_mem_dropWhile {f : Nat → Int} {t : Int} {l : List Nat}
    (hp : l.Pairwise (fun a b => f a < f b)) {b : Nat}
    (hb : b ∈ l.dropWhile (fun b => decide (f b < t))) : t ≤ f b := by
  cases hd : l.dropWhile (fun b => decide (f b < t)) with
  | nil => simp [hd] at hb
  | cons c rest =>
    have hc : ¬ f c < t := by
      have := List.head_dropWhile_not (fun b => decide (f b < t)) l (by simp [hd])
      simpa [hd] using this
    have hp' : (c :: rest).Pairwise (fun a b => f a < f b) :=
      hd ▸ hp.sublist (dropWhile_sublist_self _ l)
    rw [hd] at hb
    rcases List.mem_cons.mp hb with rfl | hb'
    · omega
    · have := (List.pairwise_cons.mp hp').1 b hb'; omega

theorem length_le_of_nodup_lt {l : List Nat} {m : Nat} (hn : l.Nodup) (hl : ∀ a ∈ l, a < m) :
    l.length ≤ m := by
  have hs : l ⊆ List.range m := fun a ha => List.mem_range.mpr (hl a ha)
  have := (List.subperm_of_subset hn hs).length_le
  simpa using this

theorem chainAt_beyond {chains : List (List Nat)} {L : Nat} (h : chains.length ≤ L) :
    chainAt chains L = [] := by
  simp [chainAt, List.getD, List.getElem?_eq_none h]

theorem WF.chains {s : SkipList} {chains : List (List Nat)} (h : WF s chains) :
    ∃ hd hn, s.head = some hd ∧ s.mem[hd]? = some hn ∧ chains.length = hn.nexts.length ∧
      Chains s.mem hd hn.nexts.length (chainAt chains) := by
  obtain ⟨hd, hn, h1, h2, h3, h4, h5, h6⟩ := h
  refine ⟨hd, hn, h1, h2, h3, ⟨fun L hL => h4 L (h3 ▸ hL), fun L => ?_, fun L => ?_,
    fun L hL => chainAt_beyond (h3 ▸ hL)⟩⟩
  · by_cases hL : L < chains.length
    · exact h5 L hL
    · rw [chainAt_beyond (not_lt.mp hL)]; exact List.Pairwise.nil
  · by_cases hL : L < chains.length
    · exact h6 L hL
    · rw [chainAt_beyond (Nat.le_succ_of_le (not_lt.mp hL))]; exact List.nil_sublist _

namespace Chains

variable {mem : List Node} {hd n : Nat} {ch : Nat → List Nat}

theorem sub_base (c : Chains mem hd n ch) : ∀ L, (ch L).Sublist (ch 0)
  | 0 => List.Sublist.refl _
  | L + 1 => (c.sub L).trans (sub_base c L)

/-- Keys identify the nodes of a chain. -/
theorem key_inj (c : Chains mem hd n ch) {L : Nat} {a b : Nat} (ha : a ∈ ch L) (hb : b ∈ ch L)
    (h : keyAt mem a = keyAt mem b) : a = b :=
  increasing_inj (c.sorted L) ha hb h

theorem valid (c : Chains mem hd n ch) {L a : Nat} (ha : a ∈ ch L) :
    ∃ p, link mem L a = some p := by
  have hL : L < n := by
    by_contra hn
    rw [c.beyond L (not_lt.mp hn)] at ha
    simp at ha
  exact (c.succs L hL).mem_valid ha

theorem lt_length (c : Chains mem hd n ch) {L a : Nat} (ha : a ∈ ch L) : a < mem.length := by
  obtain ⟨p, hp⟩ := c.valid ha
  obtain ⟨nd, hnd, _⟩ := link_eq_some hp
  exact (List.getElem?_eq_some.mp hnd).1

theorem length_le (c : Chains mem hd n ch) (L : Nat) : (ch L).length ≤ mem.length :=
  length_le_of_nodup_lt (increasing_nodup (c.sorted L)) (fun _ ha => c.lt_length ha)

/-- A position of the descent at level `L`: the head, or a node of the chain
with key below the target.  The nodes ahead of it are a tail of the chain that
contains every node of key `≥ t`. -/
theorem ahead (c : Chains mem hd n ch) {L : Nat} (hL : L < n) {t : Int} {move : Nat}
    (hm : move = hd ∨ (move ∈ ch L ∧ keyAt mem move < t)) :
    ∃ suf, Succs mem L move suf ∧ suf.length ≤ mem.length ∧ (∀ b ∈ suf, b ∈ ch L) ∧
      suf.dropWhile (fun b => decide (keyAt mem b < t)) =
        (ch L).dropWhile (fun b => decide (keyAt mem b < t)) := by
  rcases hm with rfl | ⟨hmem, hkey⟩
  · exact ⟨ch L, c.succs L hL, c.length_le L, fun _ h => h, rfl⟩
  · obtain ⟨l₁, l₂, hsplit⟩ := List.append_of_mem hmem
    have hs := c.succs L hL
    have hp := c.sorted L
    rw [hsplit] at hs hp
    have hlen := c.length_le L
    refine ⟨l₂, Succs.split hs, ?_, ?_, ?_⟩
    · rw [hsplit] at hlen; simp at hlen; omega
    · intro b hb; rw [hsplit]; simp [hb]
    · rw [hsplit]
      have : l₁ ++ move :: l₂ = (l₁ ++ [move]) ++ l₂ := by simp
      rw [this, dropWhile_append_of_all]
      intro x hx
      rcases List.mem_append.mp hx with hx | hx
      · have := (List.pairwise_append.mp hp).2.2 x hx move (List.mem_cons_self _ _)
        simp; omega
      · simp at hx; subst hx; simpa using hkey

end Chains

namespace Chains

variable {mem : List Node} {hd n : Nat} {ch : Nat → List Nat}

/-- One level of the descent: the walk to the right returns a position whose
successors are the nodes of key `≥ t` of that level. -/
theorem advance_level (c : Chains mem hd n ch) {L : Nat} (hL : L < n) {t : Int} {move : Nat}
    (hm : move = hd ∨ (move ∈ ch L ∧ keyAt mem move < t)) :
    ∃ m, advance mem L t (mem.length + 1) move = .ok m ∧
      (m = hd ∨ (m ∈ ch L ∧ keyAt mem m < t)) ∧
      Succs mem L m ((ch L).dropWhile (fun b => decide (keyAt mem b < t))) := by
  obtain ⟨suf, hs, hlen, hsub, hdrop⟩ := c.ahead hL hm
  refine ⟨stopAt mem t move suf, advance_eq suf move _ hs (by omega), ?_, ?_⟩
  · rcases stopAt_mem mem t suf move with h | ⟨h1, h2⟩
    · rw [h]; exact hm
    · exact Or.inr ⟨hsub _ h1, h2⟩
  · rw [← hdrop]; exact Succs_stopAt suf move hs

/-- No stored key equals `t` when the first key `≥ t` of level 0 is not `t`. -/
theorem no_match (c : Chains mem hd n ch) {t : Int}
    (h : ∀ a, ((ch 0).dropWhile (fun b => decide (keyAt mem b < t))).head? = some a →
      keyAt mem a ≠ t) :
    ∀ b ∈ ch 0, keyAt mem b ≠ t := by
  intro b hb heq
  have hbd : b ∈ (ch 0).dropWhile (fun b => decide (keyAt mem b < t)) :=
    mem_dropWhile_of_not hb (by simp [heq])
  cases hd' : (ch 0).dropWhile (fun b => decide (keyAt mem b < t)) with
  | nil => simp [hd'] at hbd
  | cons x rest =>
    have hx := h x (by simp [hd'])
    have hxm : x ∈ (ch 0).dropWhile (fun b => decide (keyAt mem b < t)) := by simp [hd']
    have hxt := le_of_mem_dropWhile (c.sorted 0) hxm
    have hp : (x :: rest).Pairwise (fun a b => keyAt mem a < keyAt mem b) :=
      hd' ▸ (c.sorted 0).sublist (dropWhile_sublist_self _ _)
    rw [hd'] at hbd
    rcases List.mem_cons.mp hbd with rfl | hb'
    · exact hx heq
    · have := (List.pairwise_cons.mp hp).1 b hb'; omega

/-- The descent from any position of level `lvl` returns, with a result as
described by `Descended`. -/
theorem descend_from (c : Chains mem hd n ch) (t : Int) :
    ∀ (lvl move : Nat), lvl ≤ n → (move = hd ∨ (move ∈ ch lvl ∧ keyAt mem move < t)) →
      (lvl = 0 → Descended mem hd n ch t (.bottom move)) →
      ∃ r, descend mem t lvl move = .ok r ∧ Descended mem hd n ch t r
  | 0, move, _, _, h0 => ⟨.bottom move, rfl, h0 rfl⟩
  | lvl + 1, move, hle, hm, _ => by
    have hm' : move = hd ∨ (move ∈ ch lvl ∧ keyAt mem move < t) := by
      rcases hm with h | ⟨h1, h2⟩
      · exact Or.inl h
      · exact Or.inr ⟨(c.sub lvl).subset h1, h2⟩
    obtain ⟨m, hadv, hpos, hsucc⟩ := c.advance_level (Nat.lt_of_succ_le hle) (t := t) hm'
    obtain ⟨nm, _, hld, hix⟩ := hsucc.load_ok
    have hrec : (∀ a, ((ch lvl).dropWhile (fun b => decide (keyAt mem b < t))).head? = some a →
        keyAt mem a ≠ t) → ∃ r, descend mem t lvl m = .ok r ∧ Descended mem hd n ch t r := by
      intro hne
      apply descend_from c t lvl m (Nat.le_of_succ_le hle) hpos
      intro h0
      subst h0
      exact ⟨hpos, fun hn => by omega, fun _ => hsucc, c.no_match hne⟩
    cases hdw : (ch lvl).dropWhile (fun b => decide (keyAt mem b < t)) with
    | nil =>
      obtain ⟨r, hr, hgood⟩ := hrec (by simp [hdw])
      refine ⟨r, ?_, hgood⟩
      simp [descend, hadv, hld, hix, hdw, hr, bind, Except.bind]
    | cons x rest =>
      rw [hdw] at hsucc
      obtain ⟨nx, hnx, hldx, _⟩ := hsucc.2.load_ok
      by_cases hx : keyAt mem x = t
      · refine ⟨.found x, ?_, ?_, hx⟩
        · rw [keyAt_eq hnx] at hx
          simp [descend, hadv, hld, hix, hdw, hldx, hx, bind, Except.bind, pure, Except.pure]
        · have : x ∈ (ch lvl).dropWhile (fun b => decide (keyAt mem b < t)) := by simp [hdw]
          exact (c.sub_base lvl).subset ((dropWhile_sublist_self _ _).subset this)
      · obtain ⟨r, hr, hgood⟩ := hrec (by
          intro a ha; rw [hdw] at ha; simp at ha; subst ha; exact hx)
        refine ⟨r, ?_, hgood⟩
        rw [keyAt_eq hnx] at hx
        simp [descend, hadv, hld, hix, hdw, hldx, hx, hr, bind, Except.bind]

/-- The descent from the head over all levels. -/
theorem descend_head (c : Chains mem hd n ch) (t : Int) :
    ∃ r, descend mem t n hd = .ok r ∧ Descended mem hd n ch t r := by
  apply c.descend_from t n hd (le_refl _) (Or.inl rfl)
  intro h0
  refine ⟨Or.inl rfl, fun _ => rfl, fun h => by omega, ?_⟩
  rw [c.beyond 0 (by omega)]
  simp

end Chains

/-! ## Lookups on a well-formed index -/

theorem head_dropWhile_of_key {f : Nat → Int} {t : Int} {l : List Nat}
    (hp : l.Pairwise (fun a b => f a < f b)) {a : Nat} (ha : a ∈ l) (hk : f a = t) :
    (l.dropWhile (fun b => decide (f b < t))).head? = some a := by
  have had : a ∈ l.dropWhile (fun b => decide (f b < t)) :=
    mem_dropWhile_of_not ha (by simp [hk])
  cases hd : l.dropWhile (fun b => decide (f b < t)) with
  | nil => simp [hd] at had
  | cons x rest =>
    have hx : t ≤ f x := le_of_mem_dropWhile hp (by simp [hd])
    have hp' : (x :: rest).Pairwise (fun a b => f a < f b) :=
      hd ▸ hp.sublist (dropWhile_sublist_self _ l)
    rw [hd] at had
    rcases List.mem_cons.mp had with rfl | h
    · rfl
    · have := (List.pairwise_cons.mp hp').1 a h; omega

/-- On a well-formed index `Search` returns the stored node with the given key, or `nil` when no
stored node has it. -/
theorem Search_spec {s : SkipList} {chains : List (List Nat)} (h : WF s chains) (k : Int) :
    (∃ a, a ∈ base chains ∧ keyAt s.mem a = k ∧ s.Search k = .ok (some a)) ∨
    ((∀ b ∈ base chains, keyAt s.mem b ≠ k) ∧ s.Search k = .ok none) := by
  obtain ⟨hd, hn, hhead, hmem, _, c⟩ := h.chains
  obtain ⟨r, hr, hgood⟩ := c.descend_head k
  cases r with
  | found a =>
    exact Or.inl ⟨a, hgood.1, hgood.2, by
      simp [SkipList.Search, hhead, deref, load_eq_ok hmem, hr, bind, Except.bind, pure,
        Except.pure]⟩
  | bottom m =>
    exact Or.inr ⟨hgood.2.2.2, by
      simp [SkipList.Search, hhead, deref, load_eq_ok hmem, hr, bind, Except.bind, pure,
        Except.pure]⟩

theorem WF.load_base {s : SkipList} {chains : List (List Nat)} (h : WF s chains) {a : Nat}
    (ha : a ∈ base chains) :
    ∃ n, s.mem[a]? = some n ∧ load s.mem a = .ok n ∧ n.key = keyAt s.mem a ∧
      n.val = valAt s.mem a := by
  obtain ⟨hd, hn, _, _, _, c⟩ := h.chains
  obtain ⟨p, hp⟩ := c.valid (L := 0) ha
  obtain ⟨n, hnd, _⟩ := link_eq_some hp
  exact ⟨n, hnd, load_eq_ok hnd, (keyAt_eq hnd).symm, (valAt_eq hnd).symm⟩

theorem WF.base_key_inj {s : SkipList} {chains : List (List Nat)} (h : WF s chains) {a b : Nat}
    (ha : a ∈ base chains) (hb : b ∈ base chains) (hk : keyAt s.mem a = keyAt s.mem b) :
    a = b := by
  obtain ⟨hd, hn, _, _, _, c⟩ := h.chains
  exact c.key_inj (L := 0) ha hb hk

theorem Get_of_mem {s : SkipList} {chains : List (List Nat)} (h : WF s chains) {a : Nat}
    (ha : a ∈ base chains) : s.Get (keyAt s.mem a) = .ok (valAt s.mem a, true) := by
  rcases Search_spec h (keyAt s.mem a) with ⟨b, hb, hkb, hs⟩ | ⟨hno, _⟩
  · have hab : b = a := h.base_key_inj hb ha hkb
    subst hab
    obtain ⟨n, _, hld, _, hv⟩ := h.load_base hb
    simp [SkipList.Get, hs, hld, hv, bind, Except.bind, pure, Except.pure]
  · exact absurd rfl (hno a ha)

theorem Get_of_absent {s : SkipList} {chains : List (List Nat)} (h : WF s chains) {k : Int}
    (hk : ∀ b ∈ base chains, keyAt s.mem b ≠ k) : s.Get k = .ok (-1, false) := by
  rcases Search_spec h k with ⟨b, hb, hkb, _⟩ | ⟨_, hs⟩
  · exact absurd hkb (hk b hb)
  · simp [SkipList.Get, hs, bind, Except.bind, pure, Except.pure]

/-- On an index with at least one level `ceiling` returns the first node of
the level-0 chain whose key is not below the target. -/
theorem ceiling_spec {s : SkipList} {chains : List (List Nat)} (h : WF s chains)
    (hne : chains ≠ []) (t : Int) :
    s.ceiling t =
      .ok ((base chains).dropWhile (fun b => decide (keyAt s.mem b < t))).head? := by
  obtain ⟨hd, hn, hhead, hmem, hlen, c⟩ := h.chains
  have hpos : 0 < hn.nexts.length := by
    rw [← hlen]; exact List.length_pos.mpr hne
  obtain ⟨r, hr, hgood⟩ := c.descend_head t
  cases r with
  | found a =>
    have := head_dropWhile_of_key (c.sorted 0) hgood.1 hgood.2
    simp only [base]
    rw [this]
    simp [SkipList.ceiling, hhead, deref, load_eq_ok hmem, hr, bind, Except.bind, pure,
      Except.pure]
  | bottom m =>
    obtain ⟨nm, _, hld, hix⟩ := (hgood.2.2.1 hpos).load_ok
    simp only [base]
    simp [SkipList.ceiling, hhead, deref, load_eq_ok hmem, hr, hld, hix, bind, Except.bind]

theorem Chains.lt_of_mem {mem : List Node} {hd n : Nat} {ch : Nat → List Nat}
    (c : Chains mem hd n ch) {L a : Nat} (ha : a ∈ ch L) : L < n := by
  by_contra hn
  rw [c.beyond L (not_lt.mp hn)] at ha
  simp at ha

theorem Ceiling_of_ceiling {s : SkipList} {chains : List (List Nat)} (h : WF s chains)
    {t : Int} {a : Nat} (ha : a ∈ base chains) (hc : s.ceiling t = .ok (some a)) :
    s.Ceiling t = .ok ((keyAt s.mem a, valAt s.mem a), true) := by
  obtain ⟨n, _, hld, hk, hv⟩ := h.load_base ha
  simp [SkipList.Ceiling, hc, hld, hk, hv, bind, Except.bind, pure, Except.pure]

/-- On a well-formed index with at least one level, `Ceiling` returns the
stored pair of least key `≥ t`, and reports absence when every stored key is
below `t`. -/
theorem Ceiling_least {s : SkipList} {chains : List (List Nat)} (h : WF s chains)
    (hne : chains ≠ []) (t : Int) :
    ((∀ b ∈ base chains, keyAt s.mem b < t) → s.Ceiling t = .ok ((0, 0), false)) ∧
    ((∃ b ∈ base chains, t ≤ keyAt s.mem b) →
      ∃ a ∈ base chains, s.Ceiling t = .ok ((keyAt s.mem a, valAt s.mem a), true) ∧
        t ≤ keyAt s.mem a ∧ ∀ b ∈ base chains, t ≤ keyAt s.mem b →
          keyAt s.mem a ≤ keyAt s.mem b) := by
  have hc := ceiling_spec h hne t
  obtain ⟨hd, hn, _, _, _, c⟩ := h.chains
  have hsorted := c.sorted 0
  constructor
  · intro hall
    have : (base chains).dropWhile (fun b => decide (keyAt s.mem b < t)) = [] := by
      rw [List.dropWhile_eq_nil_iff]
      intro b hb; simpa using hall b hb
    rw [this] at hc
    simp [SkipList.Ceiling, hc, bind, Except.bind, pure, Except.pure]
  · rintro ⟨b, hb, hbt⟩
    have hbd : b ∈ (base chains).dropWhile (fun b => decide (keyAt s.mem b < t)) :=
      mem_dropWhile_of_not hb (by simp; omega)
    cases hdw : (base chains).dropWhile (fun b => decide (keyAt s.mem b < t)) with
    | nil => simp [hdw] at hbd
    | cons x rest =>
      have hxd : x ∈ (base chains).dropWhile (fun b => decide (keyAt s.mem b < t)) := by
        simp [hdw]
      have hx : x ∈ base chains := (dropWhile_sublist_self _ _).subset hxd
      rw [hdw] at hc
      refine ⟨x, hx, Ceiling_of_ceiling h hx hc, le_of_mem_dropWhile hsorted hxd, ?_⟩
      intro y hy hyt
      have hyd : y ∈ (base chains).dropWhile (fun b => decide (keyAt s.mem b < t)) :=
        mem_dropWhile_of_not hy (by simp; omega)
      have hp : (x :: rest).Pairwise (fun a b => keyAt s.mem a < keyAt s.mem b) :=
        hdw ▸ hsorted.sublist (dropWhile_sublist_self _ _)
      rw [hdw] at hyd
      rcases List.mem_cons.mp hyd with rfl | hy'
      · exact le_refl _
      · exact le_of_lt ((List.pairwise_cons.mp hp).1 y hy')

/-- What `floor` returns on a well-formed index: the stored node of greatest
key `≤ t` when there is one, and otherwise the head itself (never `nil`). -/
theorem floor_spec {s : SkipList} {chains : List (List Nat)} (h : WF s chains) (t : Int) :
    (∃ a ∈ base chains, s.floor t = .ok (some a) ∧ keyAt s.mem a ≤ t ∧
      ∀ b ∈ base chains, keyAt s.mem b ≤ t → keyAt s.mem b ≤ keyAt s.mem a) ∨
    ((∀ b ∈ base chains, t < keyAt s.mem b) ∧ s.floor t = .ok s.head) := by
  obtain ⟨hd, hn, hhead, hmem, hlen, c⟩ := h.chains
  obtain ⟨r, hr, hgood⟩ := c.descend_head t
  have hsorted := c.sorted 0
  cases r with
  | found a =>
    refine Or.inl ⟨a, hgood.1, ?_, le_of_eq hgood.2, fun b _ hb => hgood.2 ▸ hb⟩
    simp [SkipList.floor, hhead, deref, load_eq_ok hmem, hr, bind, Except.bind, pure,
      Except.pure]
  | bottom m =>
    obtain ⟨hpos, hzero, hsucc, hno⟩ := hgood
    have hfl : s.floor t = .ok (some m) := by
      simp [SkipList.floor, hhead, deref, load_eq_ok hmem, hr, bind, Except.bind, pure,
        Except.pure]
    by_cases hm : m ∈ chainAt chains 0 ∧ keyAt s.mem m < t
    · refine Or.inl ⟨m, hm.1, hfl, le_of_lt hm.2, ?_⟩
      intro b hb hbt
      have hn0 : 0 < hn.nexts.length := c.lt_of_mem (L := 0) hb
      obtain ⟨l₁, l₂, hsplit⟩ := List.append_of_mem hm.1
      have hs := c.succs 0 hn0
      rw [hsplit] at hs hsorted
      have hl₂ := Succs.unique (Succs.split hs) (hsucc hn0)
      have hb' : b ∈ l₁ ++ m :: l₂ := hsplit ▸ hb
      rcases List.mem_append.mp hb' with hb1 | hb2
      · exact le_of_lt ((List.pairwise_append.mp hsorted).2.2 b hb1 m (List.mem_cons_self _ _))
      · rcases List.mem_cons.mp hb2 with rfl | hb3
        · exact le_refl _
        · rw [hl₂] at hb3
          have := le_of_mem_dropWhile (c.sorted 0) hb3
          have := hno b hb
          omega
    · have hmh : m = hd := by
        rcases hpos with h1 | h1
        · exact h1
        · exact absurd h1 hm
      subst hmh
      refine Or.inr ⟨?_, by rw [hfl, hhead]⟩
      intro b hb
      have hn0 : 0 < hn.nexts.length := c.lt_of_mem (L := 0) hb
      have hall := Succs.unique (c.succs 0 hn0) (hsucc hn0)
      have hb' : b ∈ chainAt chains 0 := hb
      rw [hall] at hb'
      have := le_of_mem_dropWhile (c.sorted 0) hb'
      have := hno b hb
      omega

/-! ## Range -/

theorem takeWhile_eq_filter_of_increasing {f : Nat → Int} {e : Int} :
    ∀ {l : List Nat}, l.Pairwise (fun a b => f a < f b) →
      l.takeWhile (fun b => decide (f b ≤ e)) = l.filter (fun b => decide (f b ≤ e))
  | [], _ => rfl
  | x :: xs, hp => by
    rw [List.pairwise_cons] at hp
    by_cases hx : f x ≤ e
    · simp [List.takeWhile_cons, List.filter_cons, hx, takeWhile_eq_filter_of_increasing hp.2]
    · have : xs.filter (fun b => decide (f b ≤ e)) = [] := by
        rw [List.filter_eq_nil_iff]
        intro y hy
        have := hp.1 y hy
        simp; omega
      simp [List.takeWhile_cons, List.filter_cons, hx, this]

/-- In a list of increasing keys, the keys `≤ e` among those from the first
key `≥ a` on are the keys in the closed interval. -/
theorem takeWhile_dropWhile_eq_filter {f : Nat → Int} {a e : Int} :
    ∀ {l : List Nat}, l.Pairwise (fun x y => f x < f y) →
      (l.dropWhile (fun b => decide (f b < a))).takeWhile (fun b => decide (f b ≤ e)) =
        l.filter (fun b => decide (a ≤ f b ∧ f b ≤ e))
  | [], _ => rfl
  | x :: xs, hp => by
    have hp' := List.pairwise_cons.mp hp
    by_cases hx : f x < a
    · have hna : ¬ (a ≤ f x) := by omega
      simp [List.dropWhile_cons, List.filter_cons, hx, hna,
        takeWhile_dropWhile_eq_filter (a := a) (e := e) hp'.2]
    · have h1 : (x :: xs).dropWhile (fun b => decide (f b < a)) = x :: xs := by
        simp [List.dropWhile_cons, hx]
      rw [h1, takeWhile_eq_filter_of_increasing hp]
      apply List.filter_congr
      intro y hy
      have hy' : a ≤ f y := by
        rcases List.mem_cons.mp hy with rfl | hy
        · omega
        · have := hp'.1 y hy; omega
      simp [hy']

/-- The collecting loop returns the pairs of the nodes ahead up to the first
key above `e`. -/
theorem collect_eq {mem : List Node} {e : Int} :
    ∀ (rest : List Nat) (c fuel : Nat), Succs mem 0 c rest → rest.length < fuel →
      collect mem e fuel (some c) =
        .ok (entries mem ((c :: rest).takeWhile (fun b => decide (keyAt mem b ≤ e))))
  | [], c, fuel + 1, h, _ => by
    obtain ⟨n, hn, hld, hix⟩ := h.load_ok
    by_cases hk : n.key ≤ e
    · simp [collect, hld, hix, hk, entries, keyAt_eq hn, valAt_eq hn, bind, Except.bind, pure,
        Except.pure]
    · simp [collect, hld, hk, entries, keyAt_eq hn, bind, Except.bind, pure,
        Except.pure]
  | b :: rest, c, fuel + 1, h, hf => by
    obtain ⟨n, hn, hld, hix⟩ := h.load_ok
    have ih := collect_eq (e := e) rest b fuel h.2 (by simpa using hf)
    by_cases hk : n.key ≤ e
    · simp only [collect, hld, hix, hk, bind, Except.bind, pure, Except.pure, if_true,
        List.head?_cons, ih]
      simp [entries, List.takeWhile_cons, keyAt_eq hn, valAt_eq hn, hk]
    · simp [collect, hld, hk, entries, keyAt_eq hn, bind, Except.bind, pure,
        Except.pure]

/-- On a well-formed index with at least one level, `Range` returns the stored
pairs whose key lies in the closed interval, in chain order. -/
theorem Range_spec {s : SkipList} {chains : List (List Nat)} (h : WF s chains)
    (hne : chains ≠ []) (a e : Int) :
    s.Range a e = .ok (entries s.mem
      ((base chains).filter (fun b => decide (a ≤ keyAt s.mem b ∧ keyAt s.mem b ≤ e)))) := by
  have hc := ceiling_spec h hne a
  obtain ⟨hd, hn, _, _, hlen, c⟩ := h.chains
  have hpos : 0 < hn.nexts.length := by
    rw [← hlen]; exact List.length_pos.mpr hne
  have hsorted : (base chains).Pairwise (fun x y => keyAt s.mem x < keyAt s.mem y) := c.sorted 0
  rw [← takeWhile_dropWhile_eq_filter hsorted]
  cases hdw : (base chains).dropWhile (fun b => decide (keyAt s.mem b < a)) with
  | nil =>
    rw [hdw] at hc
    simp [SkipList.Range, hc, entries, bind, Except.bind, pure, Except.pure]
  | cons x rest =>
    rw [hdw] at hc
    have hs : Succs s.mem 0 hd (base chains) := c.succs 0 hpos
    have hsplit := List.takeWhile_append_dropWhile (fun b => decide (keyAt s.mem b < a))
      (base chains)
    rw [hdw] at hsplit
    rw [← hsplit] at hs
    have hsx : Succs s.mem 0 x rest := Succs.split hs
    have hlen' : rest.length < s.mem.length + 1 := by
      have := c.length_le 0
      have h2 : (chainAt chains 0).length = (base chains).length := rfl
      rw [h2, ← hsplit] at this
      simp at this
      omega
    simp only [SkipList.Range, hc, bind, Except.bind]
    exact collect_eq rest x _ hsx hlen'

/-! ## Concrete indexes -/

theorem emptyIndex_wf : WF emptyIndex [] :=
  ⟨0, _, rfl, rfl, rfl, by decide, by decide, by decide⟩

theorem sample123_wf : WF sample123 [[1, 2, 3], [2]] :=
  ⟨0, _, rfl, rfl, rfl, by decide, by decide, by decide⟩

theorem sample12358_wf : WF sample12358 [[1, 2, 3, 4, 5], [2, 4]] :=
  ⟨0, _, rfl, rfl, rfl, by decide, by decide, by decide⟩

/-! ## Put of a new key -/

theorem growHead_eq (L : Nat) :
    ∀ (fuel : Nat) (nexts : List Ptr),
      growHead L fuel nexts = nexts ++ List.replicate (min fuel (L + 1 - nexts.length)) none
  | 0, nexts => by simp [growHead]
  | fuel + 1, nexts => by
    by_cases h : (nexts.length : Int) - 1 < (L : Int)
    · have hlt : nexts.length < L + 1 := by omega
      rw [growHead, if_pos h, growHead_eq L fuel]
      have : min (fuel + 1) (L + 1 - nexts.length) =
          min fuel (L + 1 - (nexts ++ [none]).length) + 1 := by
        simp; omega
      rw [this, List.replicate_succ, List.append_assoc]
      rfl
    · have hge : L + 1 - nexts.length = 0 := by omega
      rw [growHead, if_neg h, hge]
      simp

theorem Succs.mono {mem mem' : List Node} {L : Nat}
    (hl : ∀ a p, link mem L a = some p → link mem' L a = some p) :
    ∀ {l : List Nat} {a : Nat}, Succs mem L a l → Succs mem' L a l
  | [], _, h => hl _ _ h
  | _ :: _, _, h => ⟨hl _ _ h.1, Succs.mono hl h.2⟩

/-- The splice loop faults at once when the new node has no link at the top
level of the head. -/
theorem putLoop_fault {mem : List Node} {k : Int} {newNode top hd : Nat} {l : List Nat}
    {nn : Node} (hs : Succs mem top hd l) (hlen : l.length ≤ mem.length)
    (hnew : mem[newNode]? = some nn) (hshort : nn.nexts.length ≤ top) :
    putLoop k newNode (top + 1) mem hd = .error .indexOutOfRange := by
  have hadv := advance_eq (t := k) l hd (mem.length + 1) hs (by omega)
  obtain ⟨m, _, hld, hix⟩ := (Succs_stopAt (t := k) l hd hs).load_ok
  have hnot : ¬ top < nn.nexts.length := by omega
  simp [putLoop, hadv, hld, hix, setLink, load_eq_ok hnew, hnot, bind, Except.bind]

/-- A `Put` of a key that is not stored always panics: the new node is made with
`level` links, one fewer than the splice loop writes. -/
theorem Put_new_faults {s : SkipList} {chains : List (List Nat)} (h : WF s chains) {k : Int}
    (hk : ∀ b ∈ base chains, keyAt s.mem b ≠ k) (v : Int) (L : Nat) :
    s.Put k v L = .error .indexOutOfRange := by
  have hsearch : s.Search k = .ok none := by
    rcases Search_spec h k with ⟨b, hb, hkb, _⟩ | ⟨_, hs⟩
    · exact absurd hkb (hk b hb)
    · exact hs
  obtain ⟨hd, hn, hhead, hmem, hlen, c⟩ := h.chains
  have hhd : hd < s.mem.length := (List.getElem?_eq_some.mp hmem).1
  have hg : growHead L (L + 1) hn.nexts =
      hn.nexts ++ List.replicate (L + 1 - hn.nexts.length) (none : Ptr) := by
    rw [growHead_eq]
    congr 2
    omega
  simp only [SkipList.Put, Node.make, hsearch, hhead, deref, load_eq_ok hmem, hg, bind,
    Except.bind, pure, Except.pure]
  -- the store at the start of the splice loop
  set g := hn.nexts ++ List.replicate (L + 1 - hn.nexts.length) (none : Ptr) with hgdef
  set mem₂ := s.mem.set hd { hn with nexts := g } ++
    [({ nexts := List.replicate L none, key := k, val := v } : Node)] with hmdef
  have hglen : g.length = (g.length - 1) + 1 := by
    simp only [g, List.length_append, List.length_replicate]; omega
  have hgtop : L ≤ g.length - 1 := by
    simp only [g, List.length_append, List.length_replicate]; omega
  have hhd₂ : mem₂[hd]? = some { hn with nexts := g } := by
    simp only [mem₂]
    rw [List.getElem?_append_left (by simpa using hhd)]
    simp [List.getElem?_set, hhd]
  have hnew : mem₂[(s.mem.set hd { hn with nexts := g }).length]? =
      some { nexts := List.replicate L none, key := k, val := v } := by
    simp only [mem₂]
    rw [List.getElem?_append_right (le_refl _)]
    simp
  have hlink : ∀ lv a p, link s.mem lv a = some p → link mem₂ lv a = some p := by
    intro lv a p hl
    obtain ⟨n, hn', hp⟩ := link_eq_some hl
    have ha : a < s.mem.length := (List.getElem?_eq_some.mp hn').1
    by_cases hah : a = hd
    · subst hah
      have : n = hn := by rw [hmem] at hn'; exact (Option.some.inj hn').symm
      subst this
      have hlv : lv < n.nexts.length := (List.getElem?_eq_some.mp hp).1
      simp only [link, hhd₂, g]
      rw [List.getElem?_append_left hlv]
      exact hp
    · have : mem₂[a]? = some n := by
        simp only [mem₂]
        rw [List.getElem?_append_left (by simpa using ha)]
        rw [List.getElem?_set_ne (Ne.symm hah)]
        exact hn'
      simp [link, this, hp]
  have hchain : ∃ l, Succs mem₂ (g.length - 1) hd l ∧ l.length ≤ mem₂.length := by
    by_cases hgrow : hn.nexts.length ≤ L
    · refine ⟨[], ?_, by simp⟩
      have hgl : g.length - 1 = L := by
        simp only [g, List.length_append, List.length_replicate]; omega
      rw [hgl]
      show link mem₂ L hd = some none
      simp only [link, hhd₂, g]
      rw [List.getElem?_append_right hgrow]
      simp [List.getElem?_replicate]
      omega
    · have hgl : g.length - 1 = hn.nexts.length - 1 := by
        simp only [g, List.length_append, List.length_replicate]; omega
      rw [hgl]
      refine ⟨chainAt chains (hn.nexts.length - 1),
        Succs.mono (hlink _) (c.succs _ (by omega)), ?_⟩
      have := c.length_le (hn.nexts.length - 1)
      simp only [mem₂, List.length_append, List.length_set]
      omega
  obtain ⟨l, hsl, hll⟩ := hchain
  have hloop := putLoop_fault (k := k) hsl hll hnew (by simpa using hgtop)
  rw [load_eq_ok hhd₂]
  simp only []
  rw [hglen, hloop]

/-! ## Updating one link -/

theorem Succs.congr {mem mem' : List Node} {L : Nat} :
    ∀ {l : List Nat} {a : Nat}, (∀ b ∈ a :: l, link mem' L b = link mem L b) →
      Succs mem L a l → Succs mem' L a l
  | [], a, hl, h => by
    show link mem' L a = some none
    rw [hl a (List.mem_cons_self _ _)]; exact h
  | b :: rest, a, hl, h => by
    refine ⟨?_, Succs.congr (fun y hy => hl y (List.mem_cons_of_mem _ hy)) h.2⟩
    rw [hl a (List.mem_cons_self _ _)]; exact h.1

/-- The store after `m.nexts[L] = p`, when `m` has more than `L` links. -/
theorem setLink_ok {mem : List Node} {m L : Nat} {nm : Node} (hm : mem[m]? = some nm)
    (hL : L < nm.nexts.length) (p : Ptr) :
    setLink mem m L p = .ok (mem.set m { nm with nexts := nm.nexts.set L p }) := by
  simp [setLink, load_eq_ok hm, hL, bind, Except.bind, pure, Except.pure]

theorem getElem?_set_node {mem : List Node} {m : Nat} {nm : Node} (hm : mem[m]? = some nm)
    (nm' : Node) (a : Nat) :
    (mem.set m nm')[a]? = if a = m then some nm' else mem[a]? := by
  have hlt : m < mem.length := (List.getElem?_eq_some.mp hm).1
  by_cases h : a = m
  · subst h; simp [List.getElem?_set, hlt]
  · simp [h, List.getElem?_set_ne (Ne.symm h)]

theorem link_set_same {mem : List Node} {m L : Nat} {nm : Node} (hm : mem[m]? = some nm)
    (hL : L < nm.nexts.length) (p : Ptr) :
    link (mem.set m { nm with nexts := nm.nexts.set L p }) L m = some p := by
  simp [link, getElem?_set_node hm, List.getElem?_set, hL]

theorem link_set_other {mem : List Node} {m L : Nat} {nm : Node} (hm : mem[m]? = some nm)
    (p : Ptr) {L' a : Nat} (h : a ≠ m ∨ L' ≠ L) :
    link (mem.set m { nm with nexts := nm.nexts.set L p }) L' a = link mem L' a := by
  by_cases ha : a = m
  · subst ha
    have hne : L' ≠ L := by
      rcases h with h | h
      · exact absurd rfl h
      · exact h
    simp [link, getElem?_set_node hm, hm, List.getElem?_set_ne (Ne.symm hne)]
  · simp [link, getElem?_set_node hm, ha]

theorem keyAt_set_nexts {mem : List Node} {m : Nat} {nm : Node} (hm : mem[m]? = some nm)
    (nx : List Ptr) : keyAt (mem.set m { nm with nexts := nx }) = keyAt mem := by
  funext a
  by_cases ha : a = m
  · subst ha; simp [keyAt, getElem?_set_node hm, hm]
  · simp [keyAt, getElem?_set_node hm, ha]

theorem valAt_set_nexts {mem : List Node} {m : Nat} {nm : Node} (hm : mem[m]? = some nm)
    (nx : List Ptr) : valAt (mem.set m { nm with nexts := nx }) = valAt mem := by
  funext a
  by_cases ha : a = m
  · subst ha; simp [valAt, getElem?_set_node hm, hm]
  · simp [valAt, getElem?_set_node hm, ha]

/-- Unlinking: when `m` is the node just before `x` on a chain and its link is
redirected to the node after `x`, the chain loses `x` and nothing else. -/
theorem Succs.unlink {mem mem' : List Node} {L m x : Nat} {l₂ : List Nat}
    (hm : link mem' L m = some l₂.head?) (hother : ∀ b, b ≠ m → link mem' L b = link mem L b) :
    ∀ (l₁ : List Nat) (a : Nat), Succs mem L a (l₁ ++ x :: l₂) →
      (m = a ∧ l₁ = [] ∨ ∃ l, l₁ = l ++ [m]) → (a :: (l₁ ++ x :: l₂)).Nodup →
      Succs mem' L a (l₁ ++ l₂)
  | [], a, hs, hpos, hnd => by
    have hma : m = a := by
      rcases hpos with h | ⟨l, h⟩
      · exact h.1
      · simp at h
    subst hma
    have hs₂ : Succs mem L x l₂ := hs.2
    have hnd' : m ∉ l₂ ∧ x ∉ l₂ := by
      simp only [List.nil_append, List.nodup_cons, List.mem_cons, not_or] at hnd
      exact ⟨hnd.1.2, hnd.2.1⟩
    cases l₂ with
    | nil => exact hm
    | cons y r =>
      refine ⟨hm, Succs.congr (fun b hb => hother b ?_) hs₂.2⟩
      intro hbm; subst hbm; exact hnd'.1 hb
  | b :: l₁, a, hs, hpos, hnd => by
    have hmem : m ∈ b :: l₁ := by
      rcases hpos with h | ⟨l, h⟩
      · simp at h
      · rw [h]; simp
    have ham : a ≠ m := by
      intro h; subst h
      have := (List.nodup_cons.mp hnd).1
      apply this
      simp only [List.cons_append, List.mem_cons, List.mem_append] at hmem ⊢
      rcases hmem with h | h
      · exact Or.inl h
      · exact Or.inr (Or.inl h)
    have hpos' : m = b ∧ l₁ = [] ∨ ∃ l, l₁ = l ++ [m] := by
      rcases hpos with h | ⟨l, h⟩
      · simp at h
      · cases l with
        | nil => simp at h; exact Or.inl ⟨h.1.symm, h.2⟩
        | cons c l' =>
          simp at h
          exact Or.inr ⟨l', h.2⟩
    refine ⟨?_, Succs.unlink hm hother l₁ b hs.2 hpos' (List.nodup_cons.mp hnd).2⟩
    rw [hother a ham]; exact hs.1

theorem filter_ne_of_nodup {x : Nat} {l₁ l₂ : List Nat} (h : (l₁ ++ x :: l₂).Nodup) :
    (l₁ ++ x :: l₂).filter (fun b => decide (b ≠ x)) = l₁ ++ l₂ := by
  have h1 : x ∉ l₁ := fun hx => by
    have := (List.nodup_append.mp h).2.2
    exact this hx (List.mem_cons_self _ _) 
  have h2 : x ∉ l₂ := (List.nodup_cons.mp (List.nodup_append.mp h).2.1).1
  rw [List.filter_append, List.filter_cons]
  simp only [ne_eq, not_true_eq_false, decide_False, Bool.false_eq_true, if_false]
  rw [List.filter_eq_self.mpr, List.filter_eq_self.mpr]
  · intro b hb; simp; intro hbx; subst hbx; exact h2 hb
  · intro b hb; simp; intro hbx; subst hbx; exact h1 hb

theorem filter_ne_of_not_mem {x : Nat} {l : List Nat} (h : x ∉ l) :
    l.filter (fun b => decide (b ≠ x)) = l := by
  rw [List.filter_eq_self]
  intro b hb; simp; intro hbx; subst hbx; exact h hb

/-- The counting loop of `Del` counts `nil` links only, from the top down. -/
theorem trailingNil_spec (nexts : List Ptr) :
    ∀ lvl, trailingNil lvl nexts ≤ lvl ∧
      ∀ L, lvl - trailingNil lvl nexts ≤ L → L < lvl → nexts[L]? = some none
  | 0 => by simp [trailingNil]
  | lvl + 1 => by
    obtain ⟨ih1, ih2⟩ := trailingNil_spec nexts lvl
    cases hx : nexts[lvl]? with
    | none => simp [trailingNil, hx]; intro L h1 h2; omega
    | some p =>
      cases p with
      | some q => simp [trailingNil, hx]; intro L h1 h2; omega
      | none =>
        simp only [trailingNil, hx]
        refine ⟨by omega, fun L h1 h2 => ?_⟩
        by_cases hL : L = lvl
        · subst hL; exact hx
        · exact ih2 L (by omega) (by omega)

/-- After the counting loop, the topmost level that is kept has a link that is
not `nil`. -/
theorem trailingNil_top (nexts : List Ptr) :
    ∀ lvl, lvl ≤ nexts.length → trailingNil lvl nexts < lvl →
      ∃ a, nexts[lvl - trailingNil lvl nexts - 1]? = some (some a)
  | 0, _, h => by simp at h
  | lvl + 1, hle, hlt => by
    have hin : lvl < nexts.length := by omega
    cases hx : nexts[lvl]? with
    | none =>
      have := List.getElem?_eq_none_iff.mp hx
      omega
    | some p =>
      cases p with
      | some q => exact ⟨q, by simp [trailingNil, hx]⟩
      | none =>
        simp only [trailingNil, hx] at hlt ⊢
        obtain ⟨a, ha⟩ := trailingNil_top nexts lvl (by omega) (by omega)
        refine ⟨a, ?_⟩
        have : lvl + 1 - (trailingNil lvl nexts + 1) - 1 = lvl - trailingNil lvl nexts - 1 := by
          omega
        rw [this]; exact ha

/-! ## The unlink loop of `Del` -/

namespace Chains

variable {mem : List Node} {hd n : Nat} {ch : Nat → List Nat}

/-- The head is on no chain. -/
theorem head_not_mem (c : Chains mem hd n ch) (L : Nat) : hd ∉ ch L := by
  intro h
  have hL := c.lt_of_mem h
  obtain ⟨l₁, l₂, hsplit⟩ := List.append_of_mem h
  have hs := c.succs L hL
  have h2 : Succs mem L hd l₂ := by
    rw [hsplit] at hs; exact Succs.split hs
  have := Succs.unique hs h2
  rw [hsplit] at this
  have hlen := congrArg List.length this
  simp at hlen
  omega

/-- The position the walk stops at is the node just before the first node of
key `≥ t`. -/
theorem pred_pos (c : Chains mem hd n ch) {L : Nat} (hL : L < n) {m x : Nat}
    {pre rest : List Nat} (hsplit : ch L = pre ++ x :: rest) (hm : m = hd ∨ m ∈ ch L)
    (hs : Succs mem L m (x :: rest)) : m = hd ∧ pre = [] ∨ ∃ l, pre = l ++ [m] := by
  have hc := c.succs L hL
  by_cases hmem : m ∈ ch L
  · obtain ⟨l₁, l₂, hsp⟩ := List.append_of_mem hmem
    have h2 : Succs mem L m l₂ := by
      rw [hsp] at hc; exact Succs.split hc
    have hl₂ := Succs.unique h2 hs
    subst hl₂
    right
    refine ⟨l₁, ?_⟩
    have : pre ++ x :: rest = (l₁ ++ [m]) ++ x :: rest := by
      rw [← hsplit, hsp]; simp
    exact List.append_cancel_right this
  · have hmh : m = hd := by
      rcases hm with h | h
      · exact h
      · exact absurd h hmem
    subst hmh
    left
    refine ⟨rfl, ?_⟩
    have := Succs.unique hc hs
    rw [hsplit] at this
    have h3 : pre ++ x :: rest = [] ++ x :: rest := by simpa using this
    exact List.append_cancel_right h3

/-- Building the chain structure of an intermediate store of `Del`. -/
theorem partly (c : Chains mem hd n ch) {mem' : List Node} (hK : keyAt mem' = keyAt mem)
    (x lvl : Nat) (hs : ∀ L, L < n → Succs mem' L hd (partlyUnlinked ch x lvl L)) :
    Chains mem' hd n (partlyUnlinked ch x lvl) := by
  refine ⟨hs, fun L => ?_, fun L => ?_, fun L hL => ?_⟩
  · rw [hK]
    unfold partlyUnlinked
    split
    · exact c.sorted L
    · exact (c.sorted L).sublist (List.filter_sublist _)
  · unfold partlyUnlinked
    by_cases h1 : L + 1 < lvl
    · have h2 : L < lvl := by omega
      simp only [h1, h2, if_true]; exact c.sub L
    · by_cases h2 : L < lvl
      · simp only [h1, h2, if_true, if_false]
        exact (List.filter_sublist _).trans (c.sub L)
      · simp only [h1, h2, if_false]
        exact (c.sub L).filter _
  · unfold partlyUnlinked
    simp [c.beyond L hL]

end Chains

theorem partlyUnlinked_succ_of_not_mem {ch : Nat → List Nat} {x lvl : Nat} (h : x ∉ ch lvl) :
    partlyUnlinked ch x (lvl + 1) = partlyUnlinked ch x lvl := by
  funext L
  unfold partlyUnlinked
  by_cases h1 : L < lvl
  · have h2 : L < lvl + 1 := by omega
    simp [h1, h2]
  · by_cases h2 : L = lvl
    · subst h2
      simp only [Nat.lt_succ_self, if_true, h1, if_false]
      exact (filter_ne_of_not_mem h).symm
    · have h3 : ¬ L < lvl + 1 := by omega
      simp [h1, h3]

/-- The unlink loop of `Del` returns, and leaves a store in which the node `x`
of key `k` is off every chain while keys, values and the number of levels are
as before. -/
theorem delLoop_spec {mem : List Node} {hd n : Nat} {ch : Nat → List Nat}
    (c : Chains mem hd n ch) {x : Nat} {k : Int} (hx : x ∈ ch 0) (hk : keyAt mem x = k) :
    ∀ (lvl : Nat) (mem' : List Node) (move : Nat), lvl ≤ n →
      Chains mem' hd n (partlyUnlinked ch x lvl) → keyAt mem' = keyAt mem →
      valAt mem' = valAt mem → (∃ h', mem'[hd]? = some h' ∧ h'.nexts.length = n) →
      (move = hd ∨ (move ∈ ch lvl ∧ keyAt mem move < k)) →
      ∃ mem'', delLoop k lvl mem' move = .ok mem'' ∧
        Chains mem'' hd n (partlyUnlinked ch x 0) ∧ keyAt mem'' = keyAt mem ∧
        valAt mem'' = valAt mem ∧ ∃ h'', mem''[hd]? = some h'' ∧ h''.nexts.length = n
  | 0, mem', move, _, c', hK, hV, hH, _ => ⟨mem', rfl, c', hK, hV, hH⟩
  | lvl + 1, mem', move, hle, c', hK, hV, hH, hm => by
    have hL : lvl < n := Nat.lt_of_succ_le hle
    have hchL : partlyUnlinked ch x (lvl + 1) lvl = ch lvl := by
      simp [partlyUnlinked]
    have hm' : move = hd ∨ (move ∈ partlyUnlinked ch x (lvl + 1) lvl ∧ keyAt mem' move < k) := by
      rw [hchL, hK]
      rcases hm with h | ⟨h1, h2⟩
      · exact Or.inl h
      · exact Or.inr ⟨(c.sub lvl).subset h1, h2⟩
    obtain ⟨m, hadv, hpos, hsucc⟩ := c'.advance_level hL (t := k) hm'
    rw [hchL, hK] at hpos hsucc
    obtain ⟨nm, hnm, hld, hix⟩ := hsucc.load_ok
    -- the loop goes on without a change when `x` is not on this level
    have hskip : x ∉ ch lvl → ∃ mem'', delLoop k lvl mem' m = .ok mem'' ∧
        Chains mem'' hd n (partlyUnlinked ch x 0) ∧ keyAt mem'' = keyAt mem ∧
        valAt mem'' = valAt mem ∧ ∃ h'', mem''[hd]? = some h'' ∧ h''.nexts.length = n := by
      intro hnot
      rw [partlyUnlinked_succ_of_not_mem hnot] at c'
      exact delLoop_spec c hx hk lvl mem' m (Nat.le_of_succ_le hle) c' hK hV hH hpos
    cases hdw : (ch lvl).dropWhile (fun b => decide (keyAt mem b < k)) with
    | nil =>
      have hnot : x ∉ ch lvl := by
        intro hxl
        have := head_dropWhile_of_key (c.sorted lvl) hxl hk
        simp [hdw] at this
      obtain ⟨mem'', hr, hrest⟩ := hskip hnot
      refine ⟨mem'', ?_, hrest⟩
      rw [hdw] at hix
      simp [delLoop, hadv, hld, hix, hr, bind, Except.bind]
    | cons y rest =>
      rw [hdw] at hsucc hix
      obtain ⟨ny, hny, hldy, hixy⟩ := hsucc.2.load_ok
      have hyd : y ∈ (ch lvl).dropWhile (fun b => decide (keyAt mem b < k)) := by simp [hdw]
      have hyl : y ∈ ch lvl := (dropWhile_sublist_self _ _).subset hyd
      have hkey : ny.key = keyAt mem y := by rw [← hK]; exact (keyAt_eq hny).symm
      by_cases hyk : keyAt mem y = k
      · -- `y` is the node to unlink
        have hxy : x = y :=
          (c.key_inj (L := 0) ((c.sub_base lvl).subset hyl) hx (hyk.trans hk.symm)).symm
        subst hxy
        have hlt : lvl < nm.nexts.length := by
          obtain ⟨nm', hnm', hp⟩ := link_eq_some hsucc.1
          rw [hnm] at hnm'
          cases hnm'
          exact (List.getElem?_eq_some.mp hp).1
        have hset := setLink_ok hnm hlt rest.head?
        obtain ⟨pre, hsplit⟩ : ∃ pre, ch lvl = pre ++ x :: rest :=
          ⟨_, by rw [← hdw]; exact (List.takeWhile_append_dropWhile _ _).symm⟩
        have hnd : (hd :: (pre ++ x :: rest)).Nodup := by
          rw [← hsplit]
          exact List.nodup_cons.mpr ⟨c.head_not_mem lvl, increasing_nodup (c.sorted lvl)⟩
        have hcL : Succs mem' lvl hd (pre ++ x :: rest) := by
          rw [← hsplit, ← hchL]; exact c'.succs lvl hL
        have hposm : m = hd ∧ pre = [] ∨ ∃ l, pre = l ++ [m] := by
          refine c'.pred_pos hL (hchL.trans hsplit) ?_ hsucc
          rw [hchL]
          rcases hpos with h | h
          · exact Or.inl h
          · exact Or.inr h.1
        have hK'' : keyAt (mem'.set m { nm with nexts := nm.nexts.set lvl rest.head? }) =
            keyAt mem := (keyAt_set_nexts hnm _).trans hK
        have hV'' : valAt (mem'.set m { nm with nexts := nm.nexts.set lvl rest.head? }) =
            valAt mem := (valAt_set_nexts hnm _).trans hV
        -- the chain structure of the new store
        have c'' : Chains (mem'.set m { nm with nexts := nm.nexts.set lvl rest.head? }) hd n
            (partlyUnlinked ch x lvl) := by
          refine c.partly hK'' x lvl (fun L hLn => ?_)
          by_cases hLl : L = lvl
          · subst hLl
            have hflt : partlyUnlinked ch x L L = pre ++ rest := by
              simp only [partlyUnlinked, lt_irrefl, if_false]
              rw [hsplit]
              exact filter_ne_of_nodup (List.nodup_cons.mp hnd).2
            rw [hflt]
            exact Succs.unlink (link_set_same hnm hlt _)
              (fun b hb => link_set_other hnm _ (Or.inl hb)) pre hd hcL hposm hnd
          · have hsame : partlyUnlinked ch x lvl L = partlyUnlinked ch x (lvl + 1) L := by
              unfold partlyUnlinked
              by_cases h1 : L < lvl
              · have h2 : L < lvl + 1 := by omega
                simp [h1, h2]
              · have h2 : ¬ L < lvl + 1 := by omega
                simp [h1, h2]
            rw [hsame]
            exact Succs.congr (fun b _ => link_set_other hnm _ (Or.inr hLl)) (c'.succs L hLn)
        have hH'' : ∃ h'', (mem'.set m { nm with nexts := nm.nexts.set lvl rest.head? })[hd]? =
            some h'' ∧ h''.nexts.length = n := by
          obtain ⟨h', hh', hlen'⟩ := hH
          rw [getElem?_set_node hnm]
          by_cases hhm : hd = m
          · subst hhm
            rw [hnm] at hh'
            cases hh'
            exact ⟨{ nm with nexts := nm.nexts.set lvl rest.head? }, by simp, by simpa using hlen'⟩
          · exact ⟨h', by simp [hhm, hh'], hlen'⟩
        obtain ⟨mem'', hr, hrest⟩ := delLoop_spec c hx hk lvl _ m (Nat.le_of_succ_le hle) c''
          hK'' hV'' hH'' hpos
        refine ⟨mem'', ?_, hrest⟩
        have hyk' : ny.key = k := by rw [hkey]; exact hyk
        simp [delLoop, hadv, hld, hix, hldy, hyk', hixy, hset, hr, bind, Except.bind]
      · have hnot : y ∉ ch lvl → False := fun h => h hyl
        have hnotx : x ∉ ch lvl := by
          intro hxl
          have := head_dropWhile_of_key (c.sorted lvl) hxl hk
          rw [hdw] at this
          simp at this
          subst this
          exact hyk hk
        obtain ⟨mem'', hr, hrest⟩ := hskip hnotx
        refine ⟨mem'', ?_, hrest⟩
        have hyk' : ¬ ny.key = k := by rw [hkey]; exact hyk
        simp [delLoop, hadv, hld, hix, hldy, hyk', hr, bind, Except.bind]

/-! ## Del -/

theorem chainAt_chainsWithout (chains : List (List Nat)) (x n' L : Nat) :
    chainAt (chainsWithout chains x n') L =
      if L < n' then (chainAt chains L).filter (fun b => decide (b ≠ x)) else [] := by
  by_cases h : L < n'
  · simp [chainsWithout, chainAt, List.getD, h, List.getElem?_map, List.getElem?_range]
  · rw [if_neg h]
    exact chainAt_beyond (by simp [chainsWithout]; omega)

/-- A `Del` of a stored key returns a well-formed index: the node of that key is
off every chain, every other node stays where it was, and keys and values are
untouched. -/
theorem Del_stored {s : SkipList} {chains : List (List Nat)} (h : WF s chains) {x : Nat}
    (hx : x ∈ base chains) :
    ∃ s' n', s.Del (keyAt s.mem x) = .ok s' ∧ WF s' (chainsWithout chains x n') ∧
      base (chainsWithout chains x n') = (base chains).filter (fun b => decide (b ≠ x)) ∧
      keyAt s'.mem = keyAt s.mem ∧ valAt s'.mem = valAt s.mem ∧ s'.head = s.head ∧
      n' ≤ chains.length ∧
      (∀ L, n' ≤ L → (chainAt chains L).filter (fun b => decide (b ≠ x)) = []) ∧
      (0 < n' → (chainAt chains (n' - 1)).filter (fun b => decide (b ≠ x)) ≠ []) := by
  have hsearch : ∃ b, s.Search (keyAt s.mem x) = .ok (some b) := by
    rcases Search_spec h (keyAt s.mem x) with ⟨b, _, _, hs⟩ | ⟨hno, _⟩
    · exact ⟨b, hs⟩
    · exact absurd rfl (hno x hx)
  obtain ⟨b, hsearch⟩ := hsearch
  obtain ⟨hd, hn, hhead, hmem, hlen, c⟩ := h.chains
  have c0 : Chains s.mem hd hn.nexts.length (partlyUnlinked (chainAt chains) x hn.nexts.length) :=
    c.partly rfl x _ (fun L hL => by
      simp only [partlyUnlinked, hL, if_true]; exact c.succs L hL)
  obtain ⟨mem₁, hr, c₁, hK, hV, h₁, hh₁, hlen₁⟩ :=
    delLoop_spec c (x := x) hx rfl hn.nexts.length s.mem hd (le_refl _) c0 rfl rfl
      ⟨hn, hmem, rfl⟩ (Or.inl rfl)
  obtain ⟨hle, hnil⟩ := trailingNil_spec h₁.nexts h₁.nexts.length
  have htop := trailingNil_top h₁.nexts h₁.nexts.length (le_refl _)
  have hdel : s.Del (keyAt s.mem x) = .ok { s with mem := mem₁.set hd ({ h₁ with
      nexts := h₁.nexts.take (h₁.nexts.length - trailingNil h₁.nexts.length h₁.nexts) }) } := by
    simp [SkipList.Del, hsearch, hhead, deref, load_eq_ok hmem, hr, load_eq_ok hh₁, bind,
      Except.bind, pure, Except.pure]
  generalize hn' : h₁.nexts.length - trailingNil h₁.nexts.length h₁.nexts = n' at hdel hnil htop
  have hn'le : n' ≤ h₁.nexts.length := by omega
  have hK₂ : keyAt (mem₁.set hd { h₁ with nexts := h₁.nexts.take n' }) = keyAt s.mem :=
    (keyAt_set_nexts hh₁ _).trans hK
  have hV₂ : valAt (mem₁.set hd { h₁ with nexts := h₁.nexts.take n' }) = valAt s.mem :=
    (valAt_set_nexts hh₁ _).trans hV
  have hlink : ∀ L b, L < n' →
      link (mem₁.set hd { h₁ with nexts := h₁.nexts.take n' }) L b = link mem₁ L b := by
    intro L b hL
    by_cases hb : b = hd
    · subst hb
      simp [link, getElem?_set_node hh₁, hh₁, List.getElem?_take, hL]
    · simp [link, getElem?_set_node hh₁, hb]
  have hsucc₁ : ∀ L, L < hn.nexts.length →
      Succs mem₁ L hd ((chainAt chains L).filter (fun b => decide (b ≠ x))) := by
    intro L hL
    have := c₁.succs L hL
    simpa [partlyUnlinked] using this
  refine ⟨_, n', hdel, ⟨hd, { h₁ with nexts := h₁.nexts.take n' }, hhead, ?_, ?_, ?_, ?_, ?_⟩,
    ?_, hK₂, hV₂, rfl, by omega, ?_, ?_⟩
  · simp [getElem?_set_node hh₁]
  · simp [chainsWithout, hn'le]
  · intro L hL
    have hL' : L < n' := by simpa [chainsWithout] using hL
    rw [chainAt_chainsWithout, if_pos hL']
    exact Succs.congr (fun b _ => hlink L b hL') (hsucc₁ L (by omega))
  · intro L hL
    have hL' : L < n' := by simpa [chainsWithout] using hL
    show List.Pairwise (fun a b => keyAt (mem₁.set hd _) a < keyAt (mem₁.set hd _) b) _
    rw [chainAt_chainsWithout, if_pos hL', hK₂]
    exact (c.sorted L).sublist (List.filter_sublist _)
  · intro L hL
    rw [chainAt_chainsWithout, chainAt_chainsWithout]
    have hL' : L < n' := by simpa [chainsWithout] using hL
    rw [if_pos hL']
    split
    · exact (c.sub L).filter _
    · exact List.nil_sublist _
  · show chainAt _ 0 = _
    rw [chainAt_chainsWithout]
    by_cases h0 : 0 < n'
    · rw [if_pos h0]; rfl
    · rw [if_neg h0]
      by_cases hn0 : 0 < hn.nexts.length
      · have hnil0 : h₁.nexts[0]? = some none := hnil 0 (by omega) (by omega)
        have hs0 : Succs mem₁ 0 hd [] := by
          show link mem₁ 0 hd = some none
          simp [link, hh₁, hnil0]
        exact (Succs.unique (hsucc₁ 0 hn0) hs0).symm
      · have : chainAt chains 0 = [] := c.beyond 0 (by omega)
        simp [base, this]
  · intro L hL
    by_cases hLn : L < hn.nexts.length
    · have hnilL : h₁.nexts[L]? = some none := hnil L hL (by omega)
      have hsL : Succs mem₁ L hd [] := by
        show link mem₁ L hd = some none
        simp [link, hh₁, hnilL]
      exact Succs.unique (hsucc₁ L hLn) hsL
    · simp [c.beyond L (by omega)]
  · intro hpos hnil'
    obtain ⟨a, ha⟩ := htop (by omega)
    have ha' : h₁.nexts[n' - 1]? = some (some a) := ha
    have hs := hsucc₁ (n' - 1) (by omega)
    rw [hnil'] at hs
    have hl : link mem₁ (n' - 1) hd = some none := hs
    simp [link, hh₁, ha'] at hl

/-! ## Consequences for `Del` and `Floor` -/

/-- A `Del` of a key that `Search` does not find returns the index as it is. -/
theorem Del_of_search_none {s : SkipList} {k : Int} (h : s.Search k = .ok none) :
    s.Del k = .ok s := by
  simp [SkipList.Del, h, bind, Except.bind, pure, Except.pure]

/-- What `Del` does on a well-formed index, for a stored key or not: it
returns a well-formed index whose stored nodes are the old ones without the
node of that key, with keys and values as before. -/
theorem Del_spec {s : SkipList} {chains : List (List Nat)} (h : WF s chains) (k : Int) :
    ∃ s' chains', s.Del k = .ok s' ∧ WF s' chains' ∧
      base chains' = (base chains).filter (fun b => decide (keyAt s.mem b ≠ k)) ∧
      keyAt s'.mem = keyAt s.mem ∧ valAt s'.mem = valAt s.mem := by
  rcases Search_spec h k with ⟨x, hx, hkx, _⟩ | ⟨hno, hs⟩
  · obtain ⟨s', n', hdel, hwf, hbase, hK, hV, _⟩ := Del_stored h hx
    rw [hkx] at hdel
    refine ⟨s', _, hdel, hwf, ?_, hK, hV⟩
    rw [hbase]
    apply List.filter_congr
    intro b hb
    by_cases hbx : b = x
    · subst hbx; simp [hkx]
    · have : keyAt s.mem b ≠ k := fun hbk => hbx (h.base_key_inj hb hx (hbk.trans hkx.symm))
      simp [hbx, this]
  · refine ⟨s, chains, Del_of_search_none hs, h, ?_, rfl, rfl⟩
    symm
    rw [List.filter_eq_self]
    intro b hb
    simpa using hno b hb

/-- Deleting twice is deleting once, on every well-formed index. -/
theorem Del_idempotent {s : SkipList} {chains : List (List Nat)} (h : WF s chains) (k : Int) :
    (s.Del k >>= fun s' => s'.Del k) = s.Del k := by
  obtain ⟨s', chains', hdel, hwf, hbase, hK, _⟩ := Del_spec h k
  have hnone : s'.Search k = .ok none := by
    rcases Search_spec hwf k with ⟨x, hx, hkx, _⟩ | ⟨_, hs⟩
    · rw [hbase, List.mem_filter] at hx
      rw [hK] at hkx
      simp [hkx] at hx
    · exact hs
  rw [hdel]
  show s'.Del k = .ok s'
  exact Del_of_search_none hnone

/-- When no stored key is `≤ t`, `Floor` answers with the head node's own key
and value and `found = true`. -/
theorem Floor_of_none_le {s : SkipList} {chains : List (List Nat)} (h : WF s chains) {t : Int}
    (hno : ∀ b ∈ base chains, t < keyAt s.mem b) :
    ∃ hd hn, s.head = some hd ∧ s.mem[hd]? = some hn ∧
      s.Floor t = .ok ((hn.key, hn.val), true) := by
  obtain ⟨hd, hn, hhead, hmem, _, _⟩ := h.chains
  refine ⟨hd, hn, hhead, hmem, ?_⟩
  rcases floor_spec h t with ⟨a, ha, _, hle, _⟩ | ⟨_, hfl⟩
  · have := hno a ha; omega
  · simp [SkipList.Floor, hfl, hhead, load_eq_ok hmem, bind, Except.bind, pure, Except.pure]

/-! ## The worked examples of the specification -/

/-- With keys 1, 2, 3 stored: `Ceiling 0` is the pair of key 1, `Ceiling 10`
is absent, `Floor 10` is the pair of key 3 and `Ceiling 2` is the pair of
key 2 itself. -/
theorem Ceiling_Floor_examples :
    sample123.Ceiling 0 = .ok ((1, 10), true) ∧
    sample123.Ceiling 10 = .ok ((0, 0), false) ∧
    sample123.Floor 10 = .ok ((3, 30), true) ∧
    sample123.Ceiling 2 = .ok ((2, 20), true) :=
  ⟨rfl, rfl, rfl, rfl⟩

/-- With keys 1, 2, 3, 5, 8 stored: `Range 2 5` has the keys 2, 3, 5 in
increasing order, and `Range 4 4` and `Range (-5) 0` are empty. -/
theorem Range_examples :
    sample12358.Range 2 5 = .ok [(2, 20), (3, 30), (5, 50)] ∧
    sample12358.Range 4 4 = .ok [] ∧
    sample12358.Range (-5) 0 = .ok [] :=
  ⟨rfl, rfl, rfl⟩

/-! ## The claims -/

/-- C1 (round trip of Put and Get) fails on the code: on the empty index `Put`
of any key with any value and any drawn level panics with an index out of
range, so there is no state on which `Get` could return the value. -/
theorem Put_Get_round_trip_faults :
    ∀ (k v : Int) (L : Nat),
      (emptyIndex.Put k v L >>= fun s' => s'.Get k) = .error .indexOutOfRange := by
  intro k v L
  rw [Put_new_faults emptyIndex_wf (by simp [base, chainAt]) v L]
  rfl

/-- C2 (Put never fails) fails on the code: `Put` of a new key panics with an
index out of range whatever the value and the drawn level, on the empty index
and on the index with keys 1, 2, 3. -/
theorem Put_new_key_faults :
    (∀ (k v : Int) (L : Nat), emptyIndex.Put k v L = .error .indexOutOfRange) ∧
    (∀ (v : Int) (L : Nat), sample123.Put 5 v L = .error .indexOutOfRange) :=
  ⟨fun _ v L => Put_new_faults emptyIndex_wf (by simp [base, chainAt]) v L,
   fun v L => Put_new_faults sample123_wf (by decide) v L⟩

/-- C3 (Floor signals absence) fails on the code: with keys 1, 2, 3 stored,
`Floor 0` returns `found = true` with the head's zero key and value, and so
does `Floor` of every target on the empty index. -/
theorem Floor_absent_reports_found :
    entries sample123.mem (base [[1, 2, 3], [2]]) = [(1, 10), (2, 20), (3, 30)] ∧
    sample123.Floor 0 = .ok ((0, 0), true) ∧
    ∀ t, emptyIndex.Floor t = .ok ((0, 0), true) :=
  ⟨by decide, rfl, fun _ => rfl⟩

/-- C4: on a well-formed index `Get k` returns `(v, true)` when the pair
`(k, v)` is on the level-0 chain and `(-1, false)` when no node of that chain
has key `k`; on the empty index it returns `(-1, false)` for every key. -/
theorem Get_agrees_with_stored (s : SkipList) (chains : List (List Nat)) (k : Int)
    (h : WF s chains) :
    (∀ v, (k, v) ∈ entries s.mem (base chains) → s.Get k = .ok (v, true)) ∧
    ((∀ b ∈ base chains, keyAt s.mem b ≠ k) → s.Get k = .ok (-1, false)) ∧
    emptyIndex.Get k = .ok (-1, false) := by
  refine ⟨fun v hv => ?_, fun hno => Get_of_absent h hno, rfl⟩
  obtain ⟨a, ha, hkv⟩ := List.mem_map.mp hv
  have hk : keyAt s.mem a = k := congrArg Prod.fst hkv
  have hv' : valAt s.mem a = v := congrArg Prod.snd hkv
  rw [← hk, ← hv']
  exact Get_of_mem h ha

theorem Get_agrees_with_stored_witness :
    WF sample123 [[1, 2, 3], [2]] ∧ sample123.Get 2 = .ok (20, true) ∧
      sample123.Get 7 = .ok (-1, false) :=
  ⟨sample123_wf,
   (Get_agrees_with_stored sample123 [[1, 2, 3], [2]] 2 sample123_wf).1 20 (by decide),
   (Get_agrees_with_stored sample123 [[1, 2, 3], [2]] 7 sample123_wf).2.1 (by decide)⟩

/-- C5 (Ceiling is the least upper neighbour) fails on the code at the empty
index, which is well-formed and stores no key: `Ceiling` of every target
panics with an index out of range instead of returning `found = false`. -/
theorem Ceiling_empty_index_faults :
    WF emptyIndex [] ∧ ∀ t, emptyIndex.Ceiling t = .error .indexOutOfRange :=
  ⟨emptyIndex_wf, fun _ => rfl⟩

/-- C6: on a well-formed index, when some stored key is `≤ t`, `Floor t`
returns `found = true` with the pair of a stored node whose key is `≤ t` and
is the greatest such key; that key is `t` when `t` is stored. -/
theorem Floor_greatest (s : SkipList) (chains : List (List Nat)) (t : Int) (h : WF s chains)
    (hex : ∃ b ∈ base chains, keyAt s.mem b ≤ t) :
    ∃ a ∈ base chains, s.Floor t = .ok ((keyAt s.mem a, valAt s.mem a), true) ∧
      keyAt s.mem a ≤ t ∧
      (∀ b ∈ base chains, keyAt s.mem b ≤ t → keyAt s.mem b ≤ keyAt s.mem a) ∧
      ((∃ b ∈ base chains, keyAt s.mem b = t) → keyAt s.mem a = t) := by
  rcases floor_spec h t with ⟨a, ha, hfl, hle, hmax⟩ | ⟨hno, _⟩
  · refine ⟨a, ha, ?_, hle, hmax, ?_⟩
    · obtain ⟨n, _, hld, hk, hv⟩ := h.load_base ha
      simp [SkipList.Floor, hfl, hld, hk, hv, bind, Except.bind, pure, Except.pure]
    · rintro ⟨b, hb, hbt⟩
      have := hmax b hb (le_of_eq hbt)
      omega
  · obtain ⟨b, hb, hbt⟩ := hex
    have := hno b hb
    omega

theorem Floor_greatest_witness :
    WF sample123 [[1, 2, 3], [2]] ∧
      ∃ a ∈ base [[1, 2, 3], [2]],
        sample123.Floor 10 = .ok ((keyAt sample123.mem a, valAt sample123.mem a), true) ∧
        keyAt sample123.mem a ≤ 10 ∧
        (∀ b ∈ base [[1, 2, 3], [2]], keyAt sample123.mem b ≤ 10 →
          keyAt sample123.mem b ≤ keyAt sample123.mem a) ∧
        ((∃ b ∈ base [[1, 2, 3], [2]], keyAt sample123.mem b = 10) →
          keyAt sample123.mem a = 10) :=
  ⟨sample123_wf, Floor_greatest sample123 [[1, 2, 3], [2]] 10 sample123_wf ⟨1, by decide⟩⟩

/-- C7 (Range returns exactly the pairs in the closed interval) fails on the
code at the empty index, which is well-formed: `Range` of any bounds panics
with an index out of range instead of returning the empty sequence. -/
theorem Range_empty_index_faults :
    WF emptyIndex [] ∧ ∀ a e, emptyIndex.Range a e = .error .indexOutOfRange :=
  ⟨emptyIndex_wf, fun _ _ => rfl⟩

/-- C8: on a well-formed index `Del k` returns, for a stored key and for an
absent one, and `Get k` on the resulting index returns `(-1, false)`. -/
theorem Del_removes_key (s : SkipList) (chains : List (List Nat)) (k : Int) (h : WF s chains) :
    ∃ s', s.Del k = .ok s' ∧ s'.Get k = .ok (-1, false) := by
  obtain ⟨s', chains', hdel, hwf, hbase, hK, _⟩ := Del_spec h k
  refine ⟨s', hdel, Get_of_absent hwf ?_⟩
  intro b hb
  rw [hbase, List.mem_filter] at hb
  rw [hK]
  simpa using hb.2

theorem Del_removes_key_witness :
    WF sample123 [[1, 2, 3], [2]] ∧
      ∃ s', sample123.Del 2 = .ok s' ∧ s'.Get 2 = .ok (-1, false) :=
  ⟨sample123_wf, Del_removes_key sample123 [[1, 2, 3], [2]] 2 sample123_wf⟩

/-- C9: on a well-formed index `Del k` returns, and for every key `j ≠ k` the
result of `Get j` on the resulting index is the result of `Get j` before; the
head's link sequence may have shrunk. -/
theorem Del_keeps_other_keys (s : SkipList) (chains : List (List Nat)) (k j : Int)
    (h : WF s chains) (hjk : j ≠ k) :
    ∃ s', s.Del k = .ok s' ∧ s'.Get j = s.Get j := by
  obtain ⟨s', chains', hdel, hwf, hbase, hK, hV⟩ := Del_spec h k
  refine ⟨s', hdel, ?_⟩
  by_cases hj : ∃ b ∈ base chains, keyAt s.mem b = j
  · obtain ⟨b, hb, hbj⟩ := hj
    have hb' : b ∈ base chains' := by
      rw [hbase, List.mem_filter]
      refine ⟨hb, ?_⟩
      simp only [decide_eq_true_eq]
      rw [hbj]; exact hjk
    have h1 := Get_of_mem hwf hb'
    have h2 := Get_of_mem h hb
    rw [hK, hV, hbj] at h1
    rw [hbj] at h2
    rw [h1, h2]
  · have hno : ∀ b ∈ base chains, keyAt s.mem b ≠ j := fun b hb hbj => hj ⟨b, hb, hbj⟩
    have hno' : ∀ b ∈ base chains', keyAt s'.mem b ≠ j := by
      intro b hb
      rw [hbase, List.mem_filter] at hb
      rw [hK]
      exact hno b hb.1
    rw [Get_of_absent hwf hno', Get_of_absent h hno]

theorem Del_keeps_other_keys_witness :
    WF sample123 [[1, 2, 3], [2]] ∧ (3 : Int) ≠ 2 ∧
      ∃ s', sample123.Del 2 = .ok s' ∧ s'.Get 3 = sample123.Get 3 :=
  ⟨sample123_wf, by decide,
   Del_keeps_other_keys sample123 [[1, 2, 3], [2]] 2 3 sample123_wf (by decide)⟩

/-- C10: when `Search k` finds no node, `Del k` returns the state unchanged
(the store with every node's links, key and value, and the head pointer), so
`Del k` followed by `Del k` is `Del k`. -/
theorem Del_absent_is_noop (s : SkipList) (k : Int) (h : s.Search k = .ok none) :
    s.Del k = .ok s ∧ (s.Del k >>= fun s' => s'.Del k) = s.Del k := by
  have hdel := Del_of_search_none h
  refine ⟨hdel, ?_⟩
  rw [hdel]
  exact hdel

theorem Del_absent_is_noop_witness :
    sample123.Search 7 = .ok none ∧ sample123.Del 7 = .ok sample123 ∧
      (sample123.Del 7 >>= fun s' => s'.Del 7) = sample123.Del 7 :=
  ⟨rfl, Del_absent_is_noop sample123 7 rfl⟩

/-! ## randomLevel and the traversal endpoint -/

theorem randomLevelLoop_eq :
    ∀ (flips : List Nat) (level : Nat), (∃ f ∈ flips, f ≠ 1) →
      randomLevelLoop level flips =
        some (level + (flips.takeWhile (fun f => decide (f = 1))).length,
          flips.drop ((flips.takeWhile (fun f => decide (f = 1))).length + 1))
  | [], _, h => by simp at h
  | f :: rest, level, h => by
    by_cases hf : f = 1
    · have h' : ∃ g ∈ rest, g ≠ 1 := by
        obtain ⟨g, hg, hg1⟩ := h
        rcases List.mem_cons.mp hg with rfl | hg'
        · exact absurd hf hg1
        · exact ⟨g, hg', hg1⟩
      rw [randomLevelLoop, if_pos hf, randomLevelLoop_eq rest (level + 1) h']
      simp [List.takeWhile_cons, hf]
      omega
    · simp [randomLevelLoop, List.takeWhile_cons, hf]

/-- The descent computes `floor` up to the final wrapping. -/
theorem floor_of_descend {s : SkipList} {t : Int} {hd : Nat} {hn : Node} {r : Stop}
    (hhead : s.head = some hd) (hmem : s.mem[hd]? = some hn)
    (hr : descend s.mem t hn.nexts.length hd = .ok r) :
    s.floor t = .ok (some (match r with | .found a => a | .bottom m => m)) := by
  cases r <;>
    simp [SkipList.floor, hhead, deref, load_eq_ok hmem, hr, bind, Except.bind, pure,
      Except.pure]

/-- In a list of increasing keys none of which is `t`, the nodes from the
first key `≥ t` on are the nodes of key `> t`. -/
theorem dropWhile_eq_filter_gt {f : Nat → Int} {t : Int} :
    ∀ {l : List Nat}, l.Pairwise (fun a b => f a < f b) → (∀ b ∈ l, f b ≠ t) →
      l.dropWhile (fun b => decide (f b < t)) = l.filter (fun b => decide (t < f b))
  | [], _, _ => rfl
  | x :: xs, hp, hne => by
    have hp' := List.pairwise_cons.mp hp
    have hx := hne x (List.mem_cons_self _ _)
    by_cases hlt : f x < t
    · have hng : ¬ t < f x := by omega
      simp only [List.dropWhile_cons, List.filter_cons, hlt, hng, decide_True, decide_False,
        if_true, Bool.false_eq_true, if_false]
      exact dropWhile_eq_filter_gt hp'.2 (fun b hb => hne b (List.mem_cons_of_mem _ hb))
    · have hgt : t < f x := by omega
      have hall : xs.filter (fun b => decide (t < f b)) = xs := by
        rw [List.filter_eq_self]
        intro b hb
        have := hp'.1 b hb
        simp; omega
      simp [List.dropWhile_cons, List.filter_cons, hlt, hgt, hall]

/-! ## More claims -/

/-- C14 (a newly created node has level+1 links) fails on the code: the node
that `Put` allocates for drawn level `L` has exactly `L` links, never `L + 1`;
for drawn level 0 it has none. -/
theorem new_node_has_level_links :
    ∀ (k v : Int) (L : Nat),
      (Node.make k v L).nexts.length = L ∧ (Node.make k v L).nexts.length ≠ L + 1 ∧
      (Node.make k v 0).nexts = [] := by
  intro k v L
  simp [Node.make]

/-- C19: when the sequence of coin flips holds a flip other than 1,
`randomLevel` returns the number of flips equal to 1 that precede the first
other flip, and has read that many flips plus one; it returns 0, having read
one flip, when the first flip is not 1. -/
theorem randomLevel_counts_leading_successes (s : SkipList) (flips : List Nat)
    (h : ∃ f ∈ flips, f ≠ 1) :
    s.randomLevel flips =
      some ((flips.takeWhile (fun f => decide (f = 1))).length,
        flips.drop ((flips.takeWhile (fun f => decide (f = 1))).length + 1)) ∧
    (∀ f rest, flips = f :: rest → f ≠ 1 → s.randomLevel flips = some (0, rest)) := by
  have hmain := randomLevelLoop_eq flips 0 h
  refine ⟨by simpa [SkipList.randomLevel] using hmain, ?_⟩
  intro f rest hfl hf
  subst hfl
  simp [SkipList.randomLevel, randomLevelLoop, hf]

theorem randomLevel_counts_leading_successes_witness :
    (∃ f ∈ [1, 1, 0, 1, 0], f ≠ 1) ∧
      emptyIndex.randomLevel [1, 1, 0, 1, 0] = some (2, [1, 0]) ∧
      emptyIndex.randomLevel [0, 1] = some (0, [1]) :=
  ⟨by decide,
   (randomLevel_counts_leading_successes emptyIndex [1, 1, 0, 1, 0] (by decide)).1,
   (randomLevel_counts_leading_successes emptyIndex [0, 1] (by decide)).2 0 [1] rfl
     (by decide)⟩

/-- On a well-formed index, for a target `t` that is not stored, the
descent loop of `ceiling` and `floor` falls out of the loop with `move` equal
to the stored node of greatest key below `t`, or to the head when no stored
key is below `t`; when the head has a level 0, the level-0 links from `move`
lead through exactly the stored nodes of key above `t`, in order. -/
theorem descent_endpoint_of_levels (s : SkipList) (chains : List (List Nat)) (t : Int) (h : WF s chains)
    (hns : ∀ b ∈ base chains, keyAt s.mem b ≠ t) :
    ∃ hd hn m, s.head = some hd ∧ s.mem[hd]? = some hn ∧
      descend s.mem t hn.nexts.length hd = .ok (.bottom m) ∧
      ((m ∈ base chains ∧ keyAt s.mem m < t ∧
          ∀ b ∈ base chains, keyAt s.mem b < t → keyAt s.mem b ≤ keyAt s.mem m) ∨
        (m = hd ∧ ∀ b ∈ base chains, t < keyAt s.mem b)) ∧
      (chains ≠ [] →
        Succs s.mem 0 m ((base chains).filter (fun b => decide (t < keyAt s.mem b)))) := by
  obtain ⟨hd, hn, hhead, hmem, hlen, c⟩ := h.chains
  obtain ⟨r, hr, hgood⟩ := c.descend_head t
  have hfl := floor_of_descend hhead hmem hr
  cases r with
  | found a => exact absurd hgood.2 (hns a hgood.1)
  | bottom m =>
    refine ⟨hd, hn, m, hhead, hmem, hr, ?_, ?_⟩
    · rcases floor_spec h t with ⟨a, ha, hfa, hle, hmax⟩ | ⟨hno, hfh⟩
      · left
        have hma : m = a := by
          rw [hfl] at hfa
          simpa using hfa
        subst hma
        have hlt : keyAt s.mem m < t := lt_of_le_of_ne hle (hns m ha)
        exact ⟨ha, hlt, fun b hb hbt => hmax b hb (le_of_lt hbt)⟩
      · right
        have hmh : m = hd := by
          rw [hfl, hhead] at hfh
          simpa using hfh
        exact ⟨hmh, hno⟩
    · intro hne
      have hpos : 0 < hn.nexts.length := by
        rw [← hlen]; exact List.length_pos.mpr hne
      have := hgood.2.2.1 hpos
      rw [dropWhile_eq_filter_gt (c.sorted 0) hns] at this
      exact this

theorem descent_endpoint_of_levels_example :
    WF sample12358 [[1, 2, 3, 4, 5], [2, 4]] ∧
      ∃ hd hn m, sample12358.head = some hd ∧ sample12358.mem[hd]? = some hn ∧
        descend sample12358.mem 4 hn.nexts.length hd = .ok (.bottom m) ∧
        ((m ∈ base [[1, 2, 3, 4, 5], [2, 4]] ∧ keyAt sample12358.mem m < 4 ∧
            ∀ b ∈ base [[1, 2, 3, 4, 5], [2, 4]], keyAt sample12358.mem b < 4 →
              keyAt sample12358.mem b ≤ keyAt sample12358.mem m) ∨
          (m = hd ∧ ∀ b ∈ base [[1, 2, 3, 4, 5], [2, 4]], 4 < keyAt sample12358.mem b)) ∧
        (([[1, 2, 3, 4, 5], [2, 4]] : List (List Nat)) ≠ [] →
          Succs sample12358.mem 0 m
            ((base [[1, 2, 3, 4, 5], [2, 4]]).filter
              (fun b => decide (4 < keyAt sample12358.mem b)))) :=
  ⟨sample12358_wf,
   descent_endpoint_of_levels sample12358 [[1, 2, 3, 4, 5], [2, 4]] 4 sample12358_wf (by decide)⟩

/-! ## Put of a stored key -/

theorem link_set_val {mem : List Node} {x : Nat} {n : Node} (hx : mem[x]? = some n) (v : Int)
    (L a : Nat) : link (mem.set x { n with val := v }) L a = link mem L a := by
  by_cases ha : a = x
  · subst ha; simp [link, getElem?_set_node hx, hx]
  · simp [link, getElem?_set_node hx, ha]

theorem keyAt_set_val {mem : List Node} {x : Nat} {n : Node} (hx : mem[x]? = some n) (v : Int) :
    keyAt (mem.set x { n with val := v }) = keyAt mem := by
  funext a
  by_cases ha : a = x
  · subst ha; simp [keyAt, getElem?_set_node hx, hx]
  · simp [keyAt, getElem?_set_node hx, ha]

theorem valAt_set_val {mem : List Node} {x : Nat} {n : Node} (hx : mem[x]? = some n) (v : Int)
    (a : Nat) : valAt (mem.set x { n with val := v }) a = if a = x then v else valAt mem a := by
  by_cases ha : a = x
  · subst ha; simp [valAt, getElem?_set_node hx]
  · simp [valAt, getElem?_set_node hx, ha]

/-- Overwriting a value keeps the index well-formed, with the same chains. -/
theorem WF.set_val {s : SkipList} {chains : List (List Nat)} (h : WF s chains) {x : Nat}
    {n : Node} (hx : s.mem[x]? = some n) (v : Int) :
    WF { s with mem := s.mem.set x { n with val := v } } chains := by
  obtain ⟨hd, hn, h1, h2, h3, h4, h5, h6⟩ := h
  by_cases hxh : hd = x
  · subst hxh
    have hnn : hn = n := by rw [h2] at hx; exact Option.some.inj hx
    subst hnn
    refine ⟨hd, { hn with val := v }, h1, by simp [getElem?_set_node h2], h3, ?_, ?_, h6⟩
    · intro L hL
      exact Succs.congr (fun b _ => link_set_val h2 v L b) (h4 L hL)
    · intro L hL
      show List.Pairwise (fun a b => keyAt (s.mem.set hd _) a < keyAt (s.mem.set hd _) b) _
      rw [keyAt_set_val h2]
      exact h5 L hL
  · refine ⟨hd, hn, h1, by simp [getElem?_set_node hx, hxh, h2], h3, ?_, ?_, h6⟩
    · intro L hL
      exact Succs.congr (fun b _ => link_set_val hx v L b) (h4 L hL)
    · intro L hL
      show List.Pairwise (fun a b => keyAt (s.mem.set x _) a < keyAt (s.mem.set x _) b) _
      rw [keyAt_set_val hx]
      exact h5 L hL

/-- A `Put` of the key of a stored node returns the index with that node's
value overwritten, whatever the drawn level. -/
theorem Put_existing {s : SkipList} {chains : List (List Nat)} (h : WF s chains) {x : Nat}
    (hx : x ∈ base chains) {n : Node} (hn : s.mem[x]? = some n) (v : Int) (L : Nat) :
    s.Put (keyAt s.mem x) v L = .ok { s with mem := s.mem.set x { n with val := v } } := by
  have hsearch : s.Search (keyAt s.mem x) = .ok (some x) := by
    rcases Search_spec h (keyAt s.mem x) with ⟨b, hb, hkb, hs⟩ | ⟨hno, _⟩
    · rw [h.base_key_inj hb hx hkb] at hs; exact hs
    · exact absurd rfl (hno x hx)
  simp [SkipList.Put, hsearch, load_eq_ok hn, bind, Except.bind, pure, Except.pure]

/-- C11: on a well-formed index, `Put` of the key of a stored node `x` with
value `v` returns, whatever the drawn level, the same store with only the
`val` field of `x` set to `v` (no new node, same links, same head, same
chains and keys); afterwards `Get` of that key is `(v, true)`, `Get` of every
other key is as before, and the same `Put` again changes nothing. -/
theorem Put_existing_overwrites_value (s : SkipList) (chains : List (List Nat)) (x : Nat)
    (v : Int) (L : Nat) (h : WF s chains) (hx : x ∈ base chains) :
    ∃ n s', s.mem[x]? = some n ∧ s' = { s with mem := s.mem.set x { n with val := v } } ∧
      s.Put (keyAt s.mem x) v L = .ok s' ∧ WF s' chains ∧
      s'.mem.length = s.mem.length ∧ keyAt s'.mem = keyAt s.mem ∧
      (∀ lv a, link s'.mem lv a = link s.mem lv a) ∧
      (∀ a, a ≠ x → s'.mem[a]? = s.mem[a]?) ∧
      s'.Get (keyAt s.mem x) = .ok (v, true) ∧
      (∀ j, j ≠ keyAt s.mem x → s'.Get j = s.Get j) ∧
      (∀ L', s'.Put (keyAt s.mem x) v L' = .ok s') := by
  obtain ⟨n, hn, _, _, _⟩ := h.load_base hx
  have hwf : WF { s with mem := s.mem.set x { n with val := v } } chains := h.set_val hn v
  have hK := keyAt_set_val hn v
  have hn' : (s.mem.set x { n with val := v })[x]? = some { n with val := v } := by
    simp [getElem?_set_node hn]
  refine ⟨n, _, hn, rfl, Put_existing h hx hn v L, hwf, by simp, hK,
    fun lv a => link_set_val hn v lv a, fun a ha => by simp [getElem?_set_node hn, ha], ?_, ?_, ?_⟩
  · have := Get_of_mem hwf hx
    simp only [hK, valAt_set_val hn v x, if_true] at this
    exact this
  · intro j hj
    by_cases hex : ∃ b ∈ base chains, keyAt s.mem b = j
    · obtain ⟨b, hb, hbj⟩ := hex
      have hbx : b ≠ x := fun hbx => hj (by rw [← hbj, hbx])
      have h1 := Get_of_mem hwf hb
      have h2 := Get_of_mem h hb
      simp only [hK, valAt_set_val hn v b, hbx, if_false] at h1
      rw [hbj] at h1 h2
      rw [h1, h2]
    · have hno : ∀ b ∈ base chains, keyAt s.mem b ≠ j := fun b hb hbj => hex ⟨b, hb, hbj⟩
      have hno' : ∀ b ∈ base chains,
          keyAt (s.mem.set x { n with val := v }) b ≠ j := by rw [hK]; exact hno
      rw [Get_of_absent hwf hno', Get_of_absent h hno]
  · intro L'
    have := Put_existing hwf hx hn' v L'
    simp only [hK] at this
    rw [this]
    simp

theorem Put_existing_overwrites_value_witness :
    WF sample123 [[1, 2, 3], [2]] ∧ 2 ∈ base [[1, 2, 3], [2]] ∧
      ∃ n s', sample123.mem[2]? = some n ∧
        s' = { sample123 with mem := sample123.mem.set 2 { n with val := 7 } } ∧
        sample123.Put (keyAt sample123.mem 2) 7 4 = .ok s' ∧ WF s' [[1, 2, 3], [2]] ∧
        s'.mem.length = sample123.mem.length ∧ keyAt s'.mem = keyAt sample123.mem ∧
        (∀ lv a, link s'.mem lv a = link sample123.mem lv a) ∧
        (∀ a, a ≠ 2 → s'.mem[a]? = sample123.mem[a]?) ∧
        s'.Get (keyAt sample123.mem 2) = .ok (7, true) ∧
        (∀ j, j ≠ keyAt sample123.mem 2 → s'.Get j = sample123.Get j) ∧
        (∀ L', s'.Put (keyAt sample123.mem 2) 7 L' = .ok s') :=
  ⟨sample123_wf, by decide,
   Put_existing_overwrites_value sample123 [[1, 2, 3], [2]] 2 7 4 sample123_wf (by decide)⟩

/-! ## Sequences of operations -/

/-- One call on a well-formed index returns a well-formed index, or it is a
`Put` of a new key and panics. -/
theorem apply_WF {s : SkipList} {chains : List (List Nat)} (h : WF s chains) (op : Op) :
    (∃ s' chains', s.apply op = .ok s' ∧ WF s' chains') ∨
      s.apply op = .error .indexOutOfRange := by
  cases op with
  | put k v L =>
    by_cases hex : ∃ x ∈ base chains, keyAt s.mem x = k
    · obtain ⟨x, hx, hk⟩ := hex
      obtain ⟨n, hn, _, _, _⟩ := h.load_base hx
      left
      refine ⟨_, chains, ?_, h.set_val hn v⟩
      rw [← hk]
      exact Put_existing h hx hn v L
    · right
      exact Put_new_faults h (fun b hb hbk => hex ⟨b, hb, hbk⟩) v L
  | del k =>
    obtain ⟨s', chains', hdel, hwf, _⟩ := Del_spec h k
    exact Or.inl ⟨s', chains', hdel, hwf⟩

theorem run_WF :
    ∀ (ops : List Op) {s : SkipList} {chains : List (List Nat)}, WF s chains →
      (∃ s' chains', run s ops = .ok s' ∧ WF s' chains') ∨
        run s ops = .error .indexOutOfRange
  | [], s, chains, h => Or.inl ⟨s, chains, rfl, h⟩
  | op :: ops, s, chains, h => by
    rcases apply_WF h op with ⟨s', chains', hap, hwf⟩ | herr
    · rcases run_WF ops hwf with ⟨s'', chains'', hrun, hwf''⟩ | herr'
      · exact Or.inl ⟨s'', chains'', by simp [run, hap, hrun, bind, Except.bind], hwf''⟩
      · exact Or.inr (by simp [run, hap, herr', bind, Except.bind])
    · exact Or.inr (by simp [run, herr, bind, Except.bind])

theorem WF.keys_increasing {s : SkipList} {chains : List (List Nat)} (h : WF s chains) :
    ((entries s.mem (base chains)).map Prod.fst).Pairwise (fun j k => j < k) := by
  obtain ⟨hd, hn, _, _, _, c⟩ := h.chains
  have := c.sorted 0
  simp only [entries, List.map_map, List.pairwise_map]
  exact this

/-- On a well-formed index with at least one level, an inverted range is empty. -/
theorem Range_inverted {s : SkipList} {chains : List (List Nat)} (h : WF s chains)
    (hne : chains ≠ []) {a e : Int} (hae : e < a) : s.Range a e = .ok [] := by
  rw [Range_spec h hne a e]
  have : (base chains).filter (fun b => decide (a ≤ keyAt s.mem b ∧ keyAt s.mem b ≤ e)) = [] := by
    rw [List.filter_eq_nil_iff]
    intro b _
    simp
    intro hab
    omega
  rw [this]
  rfl

/-- The calls `Search`, `Get`, `Floor` and `Del` return on every well-formed index, and
`Ceiling` and `Range` return when the head has at least one level. -/
theorem lookups_return {s : SkipList} {chains : List (List Nat)} (h : WF s chains) (k e : Int) :
    (∃ r, s.Search k = .ok r) ∧ (∃ r, s.Get k = .ok r) ∧ (∃ r, s.Floor k = .ok r) ∧
    (∃ s', s.Del k = .ok s') ∧
    (chains ≠ [] → (∃ r, s.Ceiling k = .ok r) ∧ (∃ r, s.Range k e = .ok r)) := by
  refine ⟨?_, ?_, ?_, ?_, ?_⟩
  · rcases Search_spec h k with ⟨a, _, _, hs⟩ | ⟨_, hs⟩
    · exact ⟨_, hs⟩
    · exact ⟨_, hs⟩
  · by_cases hex : ∃ b ∈ base chains, keyAt s.mem b = k
    · obtain ⟨b, hb, hbk⟩ := hex
      exact ⟨_, hbk ▸ Get_of_mem h hb⟩
    · exact ⟨_, Get_of_absent h (fun b hb hbk => hex ⟨b, hb, hbk⟩)⟩
  · by_cases hex : ∃ b ∈ base chains, keyAt s.mem b ≤ k
    · rcases floor_spec h k with ⟨a, ha, hfl, _, _⟩ | ⟨hno, _⟩
      · obtain ⟨n, _, hld, _, _⟩ := h.load_base ha
        exact ⟨_, by simp [SkipList.Floor, hfl, hld, bind, Except.bind, pure, Except.pure]; rfl⟩
      · obtain ⟨b, hb, hbk⟩ := hex
        have := hno b hb
        omega
    · obtain ⟨hd, hn, _, _, hfl⟩ := Floor_of_none_le h (t := k) (fun b hb => by
        by_contra hlt
        exact hex ⟨b, hb, not_lt.mp hlt⟩)
      exact ⟨_, hfl⟩
  · obtain ⟨s', _, hdel, _⟩ := Del_spec h k
    exact ⟨s', hdel⟩
  · intro hne
    refine ⟨?_, _, Range_spec h hne k e⟩
    by_cases hex : ∃ b ∈ base chains, k ≤ keyAt s.mem b
    · obtain ⟨a, _, hc, _⟩ := (Ceiling_least h hne k).2 hex
      exact ⟨_, hc⟩
    · refine ⟨_, (Ceiling_least h hne k).1 (fun b hb => ?_)⟩
      by_contra hlt
      exact hex ⟨b, hb, not_lt.mp hlt⟩

/-! ## Claims about sequences, faults and the splice loop -/

/-- A sequence of `Put` and `Del` calls started on a well-formed index,
the empty one in particular, either returns a well-formed index, on which the
walk along the level-0 links from the head meets strictly increasing keys, or
stops with the index-out-of-range panic of a `Put` of a new key; no call ever
leaves an index whose keys are out of order. -/
theorem run_keeps_order (s : SkipList) (chains : List (List Nat)) (ops : List Op)
    (h : WF s chains) :
    (∃ s' chains', run s ops = .ok s' ∧ WF s' chains' ∧
        ((entries s'.mem (base chains')).map Prod.fst).Pairwise (fun j k => j < k)) ∨
      run s ops = .error .indexOutOfRange := by
  rcases run_WF ops h with ⟨s', chains', hrun, hwf⟩ | herr
  · exact Or.inl ⟨s', chains', hrun, hwf, hwf.keys_increasing⟩
  · exact Or.inr herr

theorem run_keeps_order_example :
    WF sample123 [[1, 2, 3], [2]] ∧ WF emptyIndex [] ∧
      (∃ s' chains', run sample123 [.put 2 7 0, .del 1, .del 9] = .ok s' ∧ WF s' chains' ∧
        ((entries s'.mem (base chains')).map Prod.fst).Pairwise (fun j k => j < k)) ∧
      (∃ s' chains', run emptyIndex [.del 4, .del 4] = .ok s' ∧ WF s' chains' ∧
        ((entries s'.mem (base chains')).map Prod.fst).Pairwise (fun j k => j < k)) :=
  ⟨sample123_wf, emptyIndex_wf,
   (run_keeps_order sample123 [[1, 2, 3], [2]] [.put 2 7 0, .del 1, .del 9] sample123_wf).elim
     id (fun herr => by
       have hrun : run sample123 [.put 2 7 0, .del 1, .del 9] = .ok
           { mem := [{ nexts := [some 2, some 2], key := 0, val := 0 },
                     { nexts := [some 2], key := 1, val := 10 },
                     { nexts := [some 3, none], key := 2, val := 7 },
                     { nexts := [none], key := 3, val := 30 }],
             head := some 0 } := rfl
       rw [hrun] at herr
       cases herr),
   (run_keeps_order emptyIndex [] [.del 4, .del 4] emptyIndex_wf).elim id (fun herr => by
       have hrun : run emptyIndex [.del 4, .del 4] = .ok emptyIndex := rfl
       rw [hrun] at herr
       cases herr)⟩

/-- C13 (lookups and Delete never fault) fails on the code at the empty index:
there `Search`, `Get`, `Floor` and `Del` return for every argument, but
`Ceiling` and `Range` panic with an index out of range. -/
theorem Ceiling_Range_fault_on_empty_index :
    WF emptyIndex [] ∧
    (∀ k, emptyIndex.Search k = .ok none ∧ emptyIndex.Get k = .ok (-1, false) ∧
      emptyIndex.Floor k = .ok ((0, 0), true) ∧ emptyIndex.Del k = .ok emptyIndex) ∧
    (∀ t, emptyIndex.Ceiling t = .error .indexOutOfRange) ∧
    (∀ a e, emptyIndex.Range a e = .error .indexOutOfRange) :=
  ⟨emptyIndex_wf, fun _ => ⟨rfl, rfl, rfl, rfl⟩, fun _ => rfl, fun _ _ => rfl⟩

/-- C15 (Put splices the new node only into levels 0..L) fails on the code:
on the two-level index with keys 1, 2, 3, `Put` of the new key 5 with drawn
level 0 starts its splice loop at level 1 and panics there; and the splice
loop, run on the same store with a new node that has room for two links,
does splice that node into level 1 as well as level 0. -/
theorem Put_splices_every_head_level :
    (∀ v, sample123.Put 5 v 0 = .error .indexOutOfRange) ∧
    (∀ v, setLink (sample123.mem ++ [Node.make 5 v 0]) 4 1 none = .error .indexOutOfRange) ∧
    ∃ mem', putLoop 5 4 2
        (sample123.mem ++ [{ nexts := [none, none], key := 5, val := 50 }]) 0 = .ok mem' ∧
      link mem' 1 2 = some (some 4) ∧ link mem' 0 3 = some (some 4) :=
  ⟨fun v => Put_new_faults sample123_wf (by decide) v 0, fun _ => rfl, _, rfl, rfl, rfl⟩

/-- C18 (an inverted range is empty) fails on the code at the empty index:
`Range 5 2` panics there with an index out of range, while on the index with
keys 1, 2, 3, 5, 8 it returns the empty sequence. -/
theorem Range_inverted_faults_on_empty_index :
    WF emptyIndex [] ∧ emptyIndex.Range 5 2 = .error .indexOutOfRange ∧
      sample12358.Range 5 2 = .ok [] :=
  ⟨emptyIndex_wf, rfl, rfl⟩

/-! ## Claims about the structure after `Del` -/

theorem WF.mem_base {s : SkipList} {chains : List (List Nat)} (h : WF s chains) {L b : Nat}
    (hb : b ∈ chainAt chains L) : b ∈ base chains := by
  obtain ⟨hd, hn, _, _, _, c⟩ := h.chains
  exact (c.sub_base L).subset hb

/-- Every node on the chain of level `L` has more than `L` links. -/
theorem WF.more_links {s : SkipList} {chains : List (List Nat)} (h : WF s chains) {L b : Nat}
    (hb : b ∈ chainAt chains L) : ∃ n, s.mem[b]? = some n ∧ L < n.nexts.length := by
  obtain ⟨hd, hn, _, _, _, c⟩ := h.chains
  obtain ⟨p, hp⟩ := c.valid hb
  obtain ⟨n, hn', hl⟩ := link_eq_some hp
  exact ⟨n, hn', (List.getElem?_eq_some.mp hl).1⟩

/-- C16: on a well-formed index `Del k` returns an index that is again
well-formed for some chains (keys strictly increasing along the chain of every
level, the chain of each level a subsequence of the one below, every node on
the chain of level `L` with more than `L` links), and no node on any of these
chains has key `k`. -/
theorem Del_preserves_invariants (s : SkipList) (chains : List (List Nat)) (k : Int)
    (h : WF s chains) :
    ∃ s' chains', s.Del k = .ok s' ∧ WF s' chains' ∧
      (∀ L, ∀ b ∈ chainAt chains' L, keyAt s'.mem b ≠ k) ∧
      (∀ L, ∀ b ∈ chainAt chains' L, ∃ n, s'.mem[b]? = some n ∧ L < n.nexts.length) := by
  rcases Search_spec h k with ⟨x, hx, hkx, _⟩ | ⟨hno, hs⟩
  · obtain ⟨s', n', hdel, hwf, _, hK, _⟩ := Del_stored h hx
    rw [hkx] at hdel
    refine ⟨s', _, hdel, hwf, ?_, fun L b hb => hwf.more_links hb⟩
    intro L b hb hbk
    rw [chainAt_chainsWithout] at hb
    split at hb
    · rw [List.mem_filter] at hb
      have hbx : b ≠ x := by simpa using hb.2
      rw [hK] at hbk
      exact hbx (h.base_key_inj (h.mem_base hb.1) hx (hbk.trans hkx.symm))
    · simp at hb
  · exact ⟨s, chains, Del_of_search_none hs, h, fun L b hb => hno b (h.mem_base hb),
      fun L b hb => h.more_links hb⟩

theorem Del_preserves_invariants_witness :
    WF sample12358 [[1, 2, 3, 4, 5], [2, 4]] ∧
      ∃ s' chains', sample12358.Del 5 = .ok s' ∧ WF s' chains' ∧
        (∀ L, ∀ b ∈ chainAt chains' L, keyAt s'.mem b ≠ 5) ∧
        (∀ L, ∀ b ∈ chainAt chains' L, ∃ n, s'.mem[b]? = some n ∧ L < n.nexts.length) :=
  ⟨sample12358_wf, Del_preserves_invariants sample12358 [[1, 2, 3, 4, 5], [2, 4]] 5
    sample12358_wf⟩

/-- C17: on a well-formed index, `Del` of the key of a stored node `x` returns
an index whose head has an empty link sequence or a last link that is not
`nil`; the head has lost links at the top only, every level it lost held no
node but `x`, and at every level it kept its link points to the first node of
the old chain other than `x`. -/
theorem Del_leaves_no_empty_top_level (s : SkipList) (chains : List (List Nat)) (x : Nat)
    (h : WF s chains) (hx : x ∈ base chains) :
    ∃ s' hd hn hn', s.Del (keyAt s.mem x) = .ok s' ∧ s.head = some hd ∧ s'.head = some hd ∧
      s.mem[hd]? = some hn ∧ s'.mem[hd]? = some hn' ∧
      (hn'.nexts = [] ∨ ∃ a, hn'.nexts.getLast? = some (some a)) ∧
      hn'.nexts.length ≤ hn.nexts.length ∧
      (∀ L, hn'.nexts.length ≤ L → ∀ b ∈ chainAt chains L, b = x) ∧
      (∀ L, L < hn'.nexts.length →
        hn'.nexts[L]? = some ((chainAt chains L).filter (fun b => decide (b ≠ x))).head?) := by
  obtain ⟨s', n', hdel, hwf, _, _, _, hhead', hle, hempty, htop⟩ := Del_stored h hx
  obtain ⟨hd, hn, h1, h2, h3, _⟩ := h
  obtain ⟨hd', hn', h1', h2', h3', h4', _⟩ := hwf
  have hdd : hd' = hd := by
    rw [hhead', h1] at h1'
    exact (Option.some.inj h1').symm
  subst hdd
  have hn'len : hn'.nexts.length = n' := by
    rw [← h3']; simp [chainsWithout]
  have hlinks : ∀ L, L < n' →
      hn'.nexts[L]? = some ((chainAt chains L).filter (fun b => decide (b ≠ x))).head? := by
    intro L hL
    have hs := h4' L (by simpa [chainsWithout] using hL)
    rw [chainAt_chainsWithout, if_pos hL] at hs
    have := hs.head?
    simpa [link, h2'] using this
  refine ⟨s', hd', hn, hn', hdel, h1, hhead'.trans h1, h2, h2', ?_, ?_, ?_, ?_⟩
  · by_cases hpos : 0 < n'
    · right
      have hne := htop hpos
      cases hf : (chainAt chains (n' - 1)).filter (fun b => decide (b ≠ x)) with
      | nil => exact absurd hf hne
      | cons a rest =>
        refine ⟨a, ?_⟩
        have := hlinks (n' - 1) (by omega)
        rw [hf] at this
        rw [List.getLast?_eq_getElem?, hn'len]
        simpa using this
    · left
      exact List.length_eq_zero.mp (by omega)
  · rw [hn'len, ← h3]; exact hle
  · intro L hL b hb
    by_contra hbx
    have := hempty L (by omega)
    have hmem : b ∈ (chainAt chains L).filter (fun b => decide (b ≠ x)) := by
      rw [List.mem_filter]; exact ⟨hb, by simpa using hbx⟩
    rw [this] at hmem
    simp at hmem
  · intro L hL
    exact hlinks L (by omega)

theorem Del_leaves_no_empty_top_level_witness :
    WF sample123 [[1, 2, 3], [2]] ∧ 2 ∈ base [[1, 2, 3], [2]] ∧
      ∃ s' hd hn hn', sample123.Del (keyAt sample123.mem 2) = .ok s' ∧
        sample123.head = some hd ∧ s'.head = some hd ∧
        sample123.mem[hd]? = some hn ∧ s'.mem[hd]? = some hn' ∧
        (hn'.nexts = [] ∨ ∃ a, hn'.nexts.getLast? = some (some a)) ∧
        hn'.nexts.length ≤ hn.nexts.length ∧
        (∀ L, hn'.nexts.length ≤ L → ∀ b ∈ chainAt [[1, 2, 3], [2]] L, b = 2) ∧
        (∀ L, L < hn'.nexts.length →
          hn'.nexts[L]? =
            some ((chainAt [[1, 2, 3], [2]] L).filter (fun b => decide (b ≠ 2))).head?) :=
  ⟨sample123_wf, by decide,
   Del_leaves_no_empty_top_level sample123 [[1, 2, 3], [2]] 2 sample123_wf (by decide)⟩

/-! ## Claims that fail through the defects of `Put` and `ceiling` -/

theorem run_dels_on_empty (ops : List Op) :
    ∀ ks : List Int, run emptyIndex (ks.map Op.del ++ ops) = run emptyIndex ops
  | [] => rfl
  | k :: ks => by
    have hdel : emptyIndex.apply (Op.del k) = .ok emptyIndex := rfl
    simp only [List.map_cons, List.cons_append, run, hdel, bind, Except.bind]
    exact run_dels_on_empty ops ks

/-- C12 (order invariant) fails on the code: started on the empty index, every
sequence of calls that holds a `Put`, alone or after any number of `Del`
calls, stops at that `Put` with an index-out-of-range panic, whatever the key,
the value and the drawn level, so no index is left whose level-0 walk could be
read. -/
theorem run_with_Put_from_empty_faults :
    WF emptyIndex [] ∧
    (∀ (k v : Int) (L : Nat), run emptyIndex [.put k v L] = .error .indexOutOfRange) ∧
    (∀ (ks : List Int) (k v : Int) (L : Nat) (ops : List Op),
      run emptyIndex (ks.map Op.del ++ .put k v L :: ops) = .error .indexOutOfRange) := by
  have hput : ∀ (k v : Int) (L : Nat) (ops : List Op),
      run emptyIndex (.put k v L :: ops) = .error .indexOutOfRange := by
    intro k v L ops
    have h : emptyIndex.apply (Op.put k v L) = .error .indexOutOfRange :=
      Put_new_faults emptyIndex_wf (by simp [base, chainAt]) v L
    simp [run, h, bind, Except.bind]
  refine ⟨emptyIndex_wf, fun k v L => hput k v L [], fun ks k v L ops => ?_⟩
  rw [run_dels_on_empty]
  exact hput k v L ops

/-- C20 (traversal endpoint) fails on the code at the empty index, which is
well-formed: for every target the descent ends with `move` at the head, as
the claim says, but the head has no level-0 link, so `move` has no level-0
successor, nil or other, and `ceiling`, which reads `move.nexts[0]`, panics
with an index out of range. -/
theorem descent_endpoint_has_no_successor_on_empty_index :
    WF emptyIndex [] ∧ emptyIndex.head = some 0 ∧
    emptyIndex.mem[0]? = some { nexts := [], key := 0, val := 0 } ∧
    ∀ t : Int, descend emptyIndex.mem t 0 0 = .ok (.bottom 0) ∧
      link emptyIndex.mem 0 0 = none ∧ (∀ l, ¬ Succs emptyIndex.mem 0 0 l) ∧
      emptyIndex.ceiling t = .error .indexOutOfRange := by
  refine ⟨emptyIndex_wf, rfl, rfl, fun t => ⟨rfl, rfl, fun l hs => ?_, rfl⟩⟩
  obtain ⟨p, hp⟩ := hs.link_isSome
  have hnone : link emptyIndex.mem 0 0 = none := rfl
  rw [hnone] at hp
  cases hp

end skip_list
